import Mathlib

/-!
# One-pass min/mean/max aggregation (`src/main/go/calculate/calculate.go`)

A shallow embedding of the `main` function of the Go program: the scan loop that
splits every line on `;`, parses the second field with `strconv.ParseFloat` and
folds it into a `map[string]*TempStats`, followed by the sorted rendering of the
table as `{key=min/mean/max, ...}`.

Modelling conventions.

* A Go `string` is a sequence of bytes: `GoString := List Nat`, every element a byte
  value.  `str` turns an ASCII literal into its bytes.
* A `float64` is an IEEE 754 binary64 value (`Float64`): NaN, the two infinities, or a
  signed multiple `k` of `2^(-1074)` (the spacing of the subnormals, of which every
  finite binary64 value is an integer multiple).  Arithmetic rounds to nearest, ties to
  even.
* `strconv.ParseFloat` belongs to the Go library, not to the program.  The scan is
  parameterised by the parser (`GoString → Option Float64`, `none` standing for a
  non-nil `err`), so that the general theorems hold for whatever the library accepts;
  `parseFloat` below models the library on decimal literals and on the special values
  and is used to evaluate the program on concrete files.
* `TempStats.Count` is a Go `int` (64 bits).  It is incremented once per accepted line,
  so it cannot wrap before `2^63` lines have been read; it is modelled as a `Nat`.
* The map is an association list with one entry per key, in insertion order.  The
  order in which `range` enumerates the keys is a parameter of `summaryFrom`.
* `sort.Strings` is modelled by an insertion sort: strings that compare equal are
  equal, so every correct sort returns the same list.
* `stats[city]` in the rendering loop yields a nil pointer for an absent key; the
  rendering returns an `Option`, `none` standing for the nil dereference, and the
  theorems show that it does not occur.
* The whole program is `main`: it takes `os.Args` and what `os.Open` and the scanner
  deliver for a path, and returns how the run ends (`Outcome`).  The line with the
  elapsed time is not modelled.
* Exact arithmetic is arithmetic on the rationals denoted by the finite values
  (`Float64.toRat`, `exactTotal`).
-/

namespace Calculate

/-! ## Strings -/

/-- A Go string: a sequence of bytes. -/
abbrev GoString := List Nat

/-- The bytes of an ASCII literal. -/
def str (s : String) : GoString := s.toList.map Char.toNat

/-- The delimiter byte `;`. -/
def semicolon : Nat := 59

/-- The call `strings.Split(s, sep)` for a one-byte separator: the fields between the
occurrences of `sep`, one more than there are occurrences. -/
def split (sep : Nat) : GoString → List GoString
  | [] => [[]]
  | c :: cs =>
    if c = sep then [] :: split sep cs
    else
      match split sep cs with
      | [] => [[c]]
      | p :: ps => (c :: p) :: ps

/-- The call `strings.SplitN(s, sep, 2)` for a one-byte separator: the text before the
first occurrence of `sep` and everything after it, or `s` alone when `sep` does not
occur. -/
def splitFirst (sep : Nat) : GoString → List GoString
  | [] => [[]]
  | c :: cs =>
    if c = sep then [[], cs]
    else
      match splitFirst sep cs with
      | [p, q] => [c :: p, q]
      | _ => [c :: cs]

/-- Go's `<` on strings: byte-wise lexicographic order. -/
def strLess : GoString → GoString → Bool
  | [], [] => false
  | [], _ :: _ => true
  | _ :: _, [] => false
  | a :: as, b :: bs =>
    if a < b then true else if b < a then false else strLess as bs

/-! ## binary64 -/

/-- A binary64 value.  `fin neg k` is `(-1)^neg · k · 2^(-1074)`; `fin true 0` is the
negative zero. -/
inductive Float64 where
  | nan
  | inf (neg : Bool)
  | fin (neg : Bool) (k : Nat)
deriving DecidableEq, Repr

namespace Float64

/-- Number of units `2^(-1074)` in `1.0`. -/
def one : Nat := 2 ^ 1074

/-- First multiple of `2^(-1074)` beyond the finite range: `2^1024`. -/
def overflow : Nat := 2 ^ 2098

/-- Round `n / d` to an integer, ties to even. -/
def roundEven (n d : Nat) : Nat :=
  let q := n / d
  let r := n % d
  if d < 2 * r ∨ (2 * r = d ∧ q % 2 = 1) then q + 1 else q

/-- How many binary digits `q` has beyond 53: the number of halvings that bring it
below `2^53`.  `fuel` bounds the count; `q` itself is enough. -/
def excessBits : Nat → Nat → Nat
  | 0, _ => 0
  | fuel + 1, q => if q < 2 ^ 53 then 0 else excessBits fuel (q / 2) + 1

/-- The binary64 value nearest to `± (n / d) · 2^(-1074)`, ties to even: the quotient
is kept to 53 significant bits (fewer in the subnormal range), and a result beyond the
largest finite value becomes an infinity. -/
def round (neg : Bool) (n d : Nat) : Float64 :=
  let s := excessBits (n / d) (n / d)
  let k := roundEven n (d * 2 ^ s) * 2 ^ s
  if overflow ≤ k then inf neg else fin neg k

/-- The position of a value on the extended number line, in units of `2^(-1074)`;
the infinities sit just outside the finite range.  Not meaningful for NaN. -/
def toInt : Float64 → Int
  | nan => 0
  | inf false => overflow
  | inf true => -overflow
  | fin false k => k
  | fin true k => -k

/-- Whether the value is NaN. -/
def isNaN : Float64 → Bool
  | nan => true
  | _ => false

/-- The comparison `x < y` of Go: false as soon as one side is NaN. -/
def lt (x y : Float64) : Bool :=
  !x.isNaN && !y.isNaN && decide (x.toInt < y.toInt)

/-- The comparison `x <= y` of Go: false as soon as one side is NaN. -/
def le (x y : Float64) : Bool :=
  !x.isNaN && !y.isNaN && decide (x.toInt ≤ y.toInt)

/-- The sum `x + y` of Go. -/
def add : Float64 → Float64 → Float64
  | nan, _ => nan
  | _, nan => nan
  | inf a, inf b => if a = b then inf a else nan
  | inf a, fin _ _ => inf a
  | fin _ _, inf b => inf b
  | fin a x, fin b y =>
    if a = b then round a (x + y) 1
    else if y < x then round a (x - y) 1
    else if x < y then round b (y - x) 1
    else fin false 0

/-- The quotient `x / y` of Go. -/
def div : Float64 → Float64 → Float64
  | nan, _ => nan
  | _, nan => nan
  | inf _, inf _ => nan
  | inf a, fin b _ => inf (a != b)
  | fin a _, inf b => fin (a != b) 0
  | fin a x, fin b y =>
    if y = 0 then (if x = 0 then nan else inf (a != b))
    else round (a != b) (x * one) y

/-- The conversion `float64(n)` of a non-negative `int`. -/
def ofCount (n : Nat) : Float64 := round false (n * one) 1

end Float64

/-! ## Decimal text -/

/-- The ASCII digit of `d < 10`. -/
def digitByte (d : Nat) : Nat := 48 + d

/-- Decimal digits of `n`, most significant first, appended to `acc`; `fuel` bounds
the number of digits. -/
def natDigits : Nat → Nat → GoString → GoString
  | 0, _, acc => acc
  | fuel + 1, n, acc =>
    if n < 10 then digitByte n :: acc
    else natDigits fuel (n / 10) (digitByte (n % 10) :: acc)

/-- The decimal numeral of `n`. -/
def natToDec (n : Nat) : GoString := natDigits (n + 1) n []

/-- The verb `%.1f` of `fmt.Sprintf`: the exact value rounded to one digit after the
point, ties to even, with the sign of the value in front (also in front of a zero). -/
def formatF1 : Float64 → GoString
  | .nan => str "NaN"
  | .inf false => str "+Inf"
  | .inf true => str "-Inf"
  | .fin neg k =>
    let t := Float64.roundEven (10 * k) Float64.one
    (if neg then str "-" else []) ++ natToDec (t / 10) ++ str "." ++ [digitByte (t % 10)]

/-- Whether a byte is an ASCII digit. -/
def isDigit (c : Nat) : Bool := 48 ≤ c && c ≤ 57

/-- The ASCII lower-case form of a byte. -/
def lower (c : Nat) : Nat := if 65 ≤ c ∧ c ≤ 90 then c + 32 else c

/-- The number written by a run of digits, continuing from `acc`. -/
def digitsVal (acc : Nat) : GoString → Nat
  | [] => acc
  | c :: cs => digitsVal (acc * 10 + (c - 48)) cs

/-- The exponent written by a run of digits: as in the library, digits are no longer
accumulated once the exponent has reached 10000. -/
def expVal (acc : Nat) : GoString → Nat
  | [] => acc
  | c :: cs => expVal (if acc < 10000 then acc * 10 + (c - 48) else acc) cs

/-- An optional sign in front of a text: whether it is `-`, and the rest. -/
def readSign : GoString → Bool × GoString
  | 43 :: cs => (false, cs)
  | 45 :: cs => (true, cs)
  | cs => (false, cs)

/-- The exponent part of a decimal literal, which must run to the end of the text:
nothing, or `e`/`E`, an optional sign and at least one digit. -/
def readExp : GoString → Option Int
  | [] => some 0
  | c :: cs =>
    if lower c = 101 then
      let sign := readSign cs
      if sign.2 ≠ [] ∧ sign.2.all isDigit then
        some (if sign.1 then -(expVal 0 sign.2 : Int) else (expVal 0 sign.2 : Int))
      else none
    else none

/-- The special values accepted by the library: `nan`, and `inf` or `infinity` with an
optional sign, in any letter case. -/
def special (s : GoString) : Option Float64 :=
  if s.map lower = str "nan" then some .nan
  else
    match s with
    | 43 :: cs =>
      if cs.map lower = str "inf" ∨ cs.map lower = str "infinity" then some (.inf false)
      else none
    | 45 :: cs =>
      if cs.map lower = str "inf" ∨ cs.map lower = str "infinity" then some (.inf true)
      else none
    | cs =>
      if cs.map lower = str "inf" ∨ cs.map lower = str "infinity" then some (.inf false)
      else none

/-- The value `± m · 10^e`, correctly rounded; `none` when it is out of range. -/
def decimalValue (neg : Bool) (m : Nat) (e : Int) : Option Float64 :=
  match e with
  | .ofNat p =>
    match Float64.round neg (m * 10 ^ p * Float64.one) 1 with
    | .inf _ => none
    | v => some v
  | .negSucc p =>
    match Float64.round neg (m * Float64.one) (10 ^ (p + 1)) with
    | .inf _ => none
    | v => some v

/-- The fraction part of a decimal literal: after a `.`, the digits that follow it;
the second component is the text that remains. -/
def readFraction : GoString → GoString × GoString
  | 46 :: t => (t.takeWhile isDigit, t.dropWhile isDigit)
  | r => ([], r)

/-- A model of `strconv.ParseFloat(s, 64)` with a nil error, on the texts without
underscores and without a hexadecimal prefix: the special values, and the decimal
literals `[sign] digits [. digits] [e [sign] digits]` with at least one digit in the
mantissa.  The value is the nearest binary64 (ties to even); a literal that rounds to
an infinity is a range error.  `none` stands for a non-nil error. -/
def parseFloat (s : GoString) : Option Float64 :=
  match special s with
  | some v => some v
  | none =>
    let sign := readSign s
    let ip := sign.2.takeWhile isDigit
    let frac := readFraction (sign.2.dropWhile isDigit)
    if ip = [] ∧ frac.1 = [] then none
    else
      match readExp frac.2 with
      | none => none
      | some e => decimalValue sign.1 (digitsVal 0 (ip ++ frac.1)) (e - frac.1.length)

/-! ## The aggregation table -/

/-- The accumulator of one key (`type TempStats struct`). -/
structure TempStats where
  Min : Float64
  Max : Float64
  Sum : Float64
  Count : Nat
deriving DecidableEq, Repr

/-- The table `map[string]*TempStats`: one entry per key. -/
abbrev StatsMap := List (GoString × TempStats)

/-- The lookup `stats[city]`; `none` when the key is absent. -/
def lookup (city : GoString) : StatsMap → Option TempStats
  | [] => none
  | (k, st) :: rest => if k = city then some st else lookup city rest

/-- The keys of the table. -/
def keysOf (stats : StatsMap) : List GoString := stats.map Prod.fst

/-- The accumulator created by the first observation of a key (line 52). -/
def TempStats.first (temp : Float64) : TempStats :=
  { Min := temp, Max := temp, Sum := temp, Count := 1 }

/-- A further observation of a key (lines 54-61). -/
def TempStats.observe (st : TempStats) (temp : Float64) : TempStats :=
  { Min := if Float64.lt temp st.Min then temp else st.Min
    Max := if Float64.lt st.Max temp then temp else st.Max
    Sum := Float64.add st.Sum temp
    Count := st.Count + 1 }

/-- Assignment through the pointer stored under `city`: the entry of `city` is replaced
by its image under `f`, the other entries are untouched. -/
def modify (city : GoString) (f : TempStats → TempStats) : StatsMap → StatsMap
  | [] => []
  | (k, st) :: rest =>
    if k = city then (k, f st) :: rest else (k, st) :: modify city f rest

/-- Lines 51-62: create the accumulator of `city`, or fold `temp` into it. -/
def record (stats : StatsMap) (city : GoString) (temp : Float64) : StatsMap :=
  match lookup city stats with
  | none => stats ++ [(city, TempStats.first temp)]
  | some _ => modify city (fun st => st.observe temp) stats

/-- Lines 40-49: the record read from a line, `none` when the line is skipped.  The
line must split into exactly two fields on `;` and the second must be accepted by the
number parser. -/
def parseLine (parseFloat : GoString → Option Float64) (line : GoString) :
    Option (GoString × Float64) :=
  match split semicolon line with
  | [city, field] =>
    match parseFloat field with
    | some temp => some (city, temp)
    | none => none
  | _ => none

/-- One iteration of the scan loop (lines 38-63). -/
def step (parseFloat : GoString → Option Float64) (stats : StatsMap) (line : GoString) :
    StatsMap :=
  match parseLine parseFloat line with
  | none => stats
  | some (city, temp) => record stats city temp

/-- The scan loop over all the lines, from the empty table (lines 35-63). -/
def scan (parseFloat : GoString → Option Float64) (lines : List GoString) : StatsMap :=
  lines.foldl (step parseFloat) []

/-! ## The summary -/

/-- Insertion of a string into an ascending list. -/
def insertSorted (s : GoString) : List GoString → List GoString
  | [] => [s]
  | t :: ts => if strLess t s then t :: insertSorted s ts else s :: t :: ts

/-- The result of `sort.Strings`: the strings in ascending byte-wise order. -/
def sortStrings : List GoString → List GoString
  | [] => []
  | s :: ss => insertSorted s (sortStrings ss)

/-- The text `key=min/mean/max` of one entry (lines 78-83), the three numbers under
`%.1f`; the mean is `Sum / float64(Count)`. -/
def entry (city : GoString) (stat : TempStats) : GoString :=
  city ++ str "=" ++ formatF1 stat.Min ++ str "/" ++
    formatF1 (Float64.div stat.Sum (Float64.ofCount stat.Count)) ++ str "/" ++
    formatF1 stat.Max

/-- The loop of lines 77-85 from the state `(result, first)`.  `none` is the nil
dereference of a city that is not in the table. -/
def renderLoop (stats : StatsMap) : List GoString → GoString × Bool → Option (GoString × Bool)
  | [], acc => some acc
  | city :: rest, (result, first) =>
    match lookup city stats with
    | none => none
    | some stat =>
      renderLoop stats rest
        ((if first then result else result ++ str ", ") ++ entry city stat, false)

/-- Lines 75-86: the summary string over the sorted `cities`. -/
def render (stats : StatsMap) (cities : List GoString) : Option GoString :=
  match renderLoop stats cities (str "\x7b", true) with
  | none => none
  | some (result, _) => some (result ++ str "\x7d")

/-- Lines 69-86 when `range stats` enumerates the keys in the order `cities`. -/
def summaryFrom (stats : StatsMap) (cities : List GoString) : Option GoString :=
  render stats (sortStrings cities)

/-- Lines 69-86, the keys enumerated in the order of the table. -/
def summary (stats : StatsMap) : Option GoString :=
  summaryFrom stats (keysOf stats)

/-- The summary string printed for a file made of `lines` (lines 35-88). -/
def run (parseFloat : GoString → Option Float64) (lines : List GoString) : Option GoString :=
  summary (scan parseFloat lines)

/-! ## Notions of the specification -/

/-- The well-formed record written on a line, in the words of the specification: the
line has exactly two `;`-separated fields and the second one is parseable.  `none` for
a malformed line. -/
def wellFormed (parseFloat : GoString → Option Float64) (line : GoString) :
    Option (GoString × Float64) :=
  let fields := split semicolon line
  if fields.length = 2 then
    (parseFloat (fields.getD 1 [])).map (fun value => (fields.getD 0 [], value))
  else none

/-- A malformed line, in the words of the specification: it does not split into
exactly two fields on `;`, or its second field does not parse as a number. -/
def malformed (parseFloat : GoString → Option Float64) (line : GoString) : Bool :=
  (split semicolon line).length != 2 || (parseFloat ((split semicolon line).getD 1 [])).isNone

/-- Whether a binary64 value is a finite number. -/
def Float64.isFinite : Float64 → Bool
  | .fin _ _ => true
  | _ => false

/-- The well-formed records of the input, in input order. -/
def records (parseFloat : GoString → Option Float64) (lines : List GoString) :
    List (GoString × Float64) :=
  lines.filterMap (wellFormed parseFloat)

/-- The values of the well-formed records whose first field is `key`, in input order. -/
def valuesOf (parseFloat : GoString → Option Float64) (key : GoString)
    (lines : List GoString) : List Float64 :=
  ((records parseFloat lines).filter (fun r => r.1 = key)).map Prod.snd

/-- The running total of a non-empty sequence of values, added from left to right. -/
def total : List Float64 → Float64
  | [] => Float64.fin false 0
  | v :: vs => vs.foldl Float64.add v

/-- The algorithm of the specification for one line: split once at the first `;`,
require two fields, and parse everything after the delimiter as the value. -/
def parseLineSpec (parseFloat : GoString → Option Float64) (line : GoString) :
    Option (GoString × Float64) :=
  match splitFirst semicolon line with
  | [key, value] =>
    match parseFloat value with
    | some temp => some (key, temp)
    | none => none
  | _ => none

/-- The entries of the table in ascending order of their keys. -/
def sortedEntries (stats : StatsMap) : StatsMap :=
  (sortStrings (keysOf stats)).filterMap (fun city => (lookup city stats).map (fun st => (city, st)))

/-- The accumulator of a key after one more observation of it: created when there was
none, updated otherwise. -/
def bump (o : Option TempStats) (temp : Float64) : TempStats :=
  match o with
  | none => TempStats.first temp
  | some st => st.observe temp

/-- The accumulator obtained from a sequence of values observed in this order; `none`
for the empty sequence. -/
def aggregate : List Float64 → Option TempStats
  | [] => none
  | v :: vs => some (vs.foldl TempStats.observe (TempStats.first v))

/-! ## Example files of the specification -/

/-- Scenario 1 of the specification. -/
def scenario1 : List GoString :=
  [str "Hamburg;12.0", str "Bulawayo;8.9", str "Hamburg;16.5"]

/-- Scenario 2 of the specification: a malformed line between two records. -/
def scenario2 : List GoString :=
  [str "Paris;20.0", str "Paris;notanumber", str "Paris;22.0"]

/-- Scenario 3 of the specification: a line without delimiter. -/
def scenario3 : List GoString :=
  [str "NoCity", str "Tokyo;30.0"]

/-- A file made of malformed lines only. -/
def onlyMalformed : List GoString :=
  [str "NoCity", str "Paris;notanumber", str "a;1;2", str ""]

/-! ## The whole program -/

/-- What the scanner delivers from an opened file: the lines returned while
`scanner.Scan()` holds, and whether `scanner.Err()` is non-nil once it stops (an I/O
error, or a line beyond the buffer of the scanner). -/
structure Source where
  lines : List GoString
  failed : Bool

/-- How a run of `main` ends.  The fatal ends write to the standard error only;
`printed result` is the normal end, `result` being the line printed at line 88 (the
line with the elapsed time that follows it is not modelled). -/
inductive Outcome where
  | indexPanic
  | usageError
  | openError
  | readError
  | nilPanic
  | printed (result : GoString)
deriving DecidableEq, Repr

/-- The summary string written to the standard output, if any. -/
def Outcome.summary : Outcome → Option GoString
  | .printed result => some result
  | _ => none

/-- The function `main` (lines 21-91).  `args` is `os.Args`, `openFile` gives what
`os.Open` and the scanner deliver for a path (`none` when the file cannot be opened).
With an empty `os.Args` the usage message cannot be built (`os.Args[0]`). -/
def main (parseFloat : GoString → Option Float64) (openFile : GoString → Option Source)
    (args : List GoString) : Outcome :=
  if args.length < 2 then
    match args with
    | [] => .indexPanic
    | _ :: _ => .usageError
  else
    match openFile (args.getD 1 []) with
    | none => .openError
    | some file =>
      let stats := scan parseFloat file.lines
      if file.failed then .readError
      else
        match summary stats with
        | none => .nilPanic
        | some result => .printed result

/-! ## Exact numbers -/

/-- The comparison `x == y` of Go: false as soon as one side is NaN, and true between
the two zeros. -/
def Float64.eq (x y : Float64) : Bool :=
  !x.isNaN && !y.isNaN && decide (x.toInt = y.toInt)

/-- Whether a value is one of the two zeros. -/
def Float64.isZero : Float64 → Bool
  | .fin _ 0 => true
  | _ => false

/-- Whether a value of the model is a binary64 value: a finite value must be one that
rounding leaves unchanged. -/
def Float64.representable : Float64 → Bool
  | .fin neg k => decide (Float64.round neg k 1 = .fin neg k)
  | _ => true

/-- The exact number denoted by a finite value. -/
def Float64.toRat (x : Float64) : ℚ := (x.toInt : ℚ) / (Float64.one : ℚ)

/-- The total of a sequence of finite values under exact arithmetic, added from left to
right as `Sum += temp` does. -/
def exactTotal : List Float64 → ℚ
  | [] => 0
  | v :: vs => vs.foldl (fun acc x => acc + x.toRat) v.toRat

/-! ## Further example files -/

/-- Scenario 5 of the specification: a single negative value. -/
def scenario5 : List GoString := [str "Oslo;-5.5"]

/-- A source that fails after scenario 1 has been read. -/
def failingSource : Source := { lines := scenario1, failed := true }

/-- A source that delivers scenario 1 and then ends normally. -/
def soundSource : Source := { lines := scenario1, failed := false }

/-- Two records of one key, the first of them NaN. -/
def nanFirst : List GoString := [str "A;NaN", str "A;1.0"]

/-- The records of `nanFirst` in the other order. -/
def nanLast : List GoString := [str "A;1.0", str "A;NaN"]

/-- Two records of one key, a zero and then a negative zero. -/
def zeroFirst : List GoString := [str "A;0.0", str "A;-0.0"]

/-- The records of `zeroFirst` in the other order. -/
def zeroLast : List GoString := [str "A;-0.0", str "A;0.0"]

/-- A directory with two files: `a.txt` holds scenario 1 and `b.txt` holds
scenario 2; no other path can be opened. -/
def twoFiles (path : GoString) : Option Source :=
  if path = str "a.txt" then some soundSource
  else if path = str "b.txt" then some { lines := scenario2, failed := false }
  else none

/-- Three records of one key with the value 0.1. -/
def threeTenths : List GoString := [str "A;0.1", str "A;0.1", str "A;0.1"]

/-- Six records of one key with the value 0.35. -/
def sixRecords : List GoString :=
  [str "A;0.35", str "A;0.35", str "A;0.35", str "A;0.35", str "A;0.35", str "A;0.35"]

/-! ## Additions that do not round -/

/-- Whether the running total that starts at `acc` and adds the values from left to
right, as `Sum += temp` does, is computed without rounding: every binary64 sum is
finite and is the exact sum of its two operands. -/
def exactSums : Float64 → List Float64 → Bool
  | _, [] => true
  | acc, v :: vs =>
    (Float64.add acc v).isFinite &&
      decide ((Float64.add acc v).toInt = acc.toInt + v.toInt) &&
      exactSums (Float64.add acc v) vs

/-- Whether the total of the values of a key is computed without rounding. -/
def exactRun : List Float64 → Bool
  | [] => true
  | v :: vs => exactSums v vs

/-! ## The table: lookup, keys and updates -/

theorem lookup_eq_none_iff (city : GoString) (stats : StatsMap) :
    lookup city stats = none ↔ city ∉ keysOf stats := by
  induction stats with
  | nil => simp [lookup, keysOf]
  | cons e rest ih =>
    obtain ⟨k, st⟩ := e
    by_cases h : k = city
    · simp [lookup, keysOf, h]
    · have h2 : ¬ city = k := fun e => h e.symm
      simpa [lookup, keysOf, h, h2] using ih

theorem lookup_append (city : GoString) (a b : StatsMap) :
    lookup city (a ++ b) = (lookup city a).orElse (fun _ => lookup city b) := by
  induction a with
  | nil => simp [lookup]
  | cons e rest ih =>
    obtain ⟨k, st⟩ := e
    by_cases h : k = city
    · simp [lookup, h]
    · simpa [lookup, h] using ih

theorem lookup_modify (city c : GoString) (f : TempStats → TempStats) (stats : StatsMap) :
    lookup city (modify c f stats) =
      if c = city then (lookup city stats).map f else lookup city stats := by
  induction stats with
  | nil => simp [lookup, modify]
  | cons e rest ih =>
    obtain ⟨k, st⟩ := e
    by_cases hk : k = c
    · subst hk
      by_cases h : k = city
      · simp [lookup, modify, h]
      · simp [lookup, modify, h]
    · by_cases h : k = city
      · subst h
        have : ¬ c = k := fun e => hk e.symm
        simp [lookup, modify, hk, this]
      · simp [lookup, modify, hk, h, ih]

theorem keysOf_modify (c : GoString) (f : TempStats → TempStats) (stats : StatsMap) :
    keysOf (modify c f stats) = keysOf stats := by
  induction stats with
  | nil => rfl
  | cons e rest ih =>
    obtain ⟨k, st⟩ := e
    by_cases hk : k = c
    · simp [modify, keysOf, hk]
    · simpa [modify, keysOf, hk] using ih

theorem lookup_record (city c : GoString) (temp : Float64) (stats : StatsMap) :
    lookup city (record stats c temp) =
      if c = city then some (bump (lookup city stats) temp) else lookup city stats := by
  unfold record
  by_cases h : c = city
  · subst h
    cases hl : lookup c stats with
    | none => simp [lookup_append, hl, lookup, bump]
    | some st => simp [lookup_modify, hl, bump]
  · cases hl : lookup c stats with
    | none =>
      simp only [lookup_append, h, if_false]
      cases lookup city stats <;> simp [lookup, h]
    | some st => simp [lookup_modify, h]

theorem keysOf_record (c : GoString) (temp : Float64) (stats : StatsMap) :
    keysOf (record stats c temp) =
      if c ∈ keysOf stats then keysOf stats else keysOf stats ++ [c] := by
  unfold record
  cases hl : lookup c stats with
  | none =>
    have := (lookup_eq_none_iff c stats).1 hl
    rw [if_neg this]
    simp [keysOf]
  | some st =>
    have : c ∈ keysOf stats := by
      by_contra hc
      rw [(lookup_eq_none_iff c stats).2 hc] at hl
      cases hl
    simp [this, keysOf_modify]

/-! ## The scan, key by key -/

theorem parseLine_eq_wellFormed (pf : GoString → Option Float64) (line : GoString) :
    parseLine pf line = wellFormed pf line := by
  unfold parseLine wellFormed
  rcases h : split semicolon line with _ | ⟨a, _ | ⟨b, _ | ⟨c, t⟩⟩⟩ <;> simp
  cases pf b <;> rfl

theorem valuesOf_nil (pf : GoString → Option Float64) (key : GoString) :
    valuesOf pf key [] = [] := rfl

theorem valuesOf_cons_none (pf : GoString → Option Float64) (key line : GoString)
    (lines : List GoString) (h : wellFormed pf line = none) :
    valuesOf pf key (line :: lines) = valuesOf pf key lines := by
  simp [valuesOf, records, List.filterMap_cons, h]

theorem valuesOf_cons_some (pf : GoString → Option Float64) (key line c : GoString)
    (v : Float64) (lines : List GoString) (h : wellFormed pf line = some (c, v)) :
    valuesOf pf key (line :: lines) =
      if c = key then v :: valuesOf pf key lines else valuesOf pf key lines := by
  by_cases hc : c = key <;> simp [valuesOf, records, List.filterMap_cons, h, hc]

theorem lookup_foldl_step (pf : GoString → Option Float64) (key : GoString)
    (lines : List GoString) (stats : StatsMap) :
    lookup key (lines.foldl (step pf) stats) =
      (valuesOf pf key lines).foldl (fun o v => some (bump o v)) (lookup key stats) := by
  induction lines generalizing stats with
  | nil => rfl
  | cons line rest ih =>
    rw [List.foldl_cons, ih]
    cases h : wellFormed pf line with
    | none =>
      rw [valuesOf_cons_none pf key line rest h]
      simp [step, parseLine_eq_wellFormed, h]
    | some r =>
      obtain ⟨c, v⟩ := r
      rw [valuesOf_cons_some pf key line c v rest h]
      simp only [step, parseLine_eq_wellFormed, h, lookup_record]
      by_cases hc : c = key <;> simp [hc]

theorem foldl_bump_some (vs : List Float64) (st : TempStats) :
    vs.foldl (fun o v => some (bump o v)) (some st) = some (vs.foldl TempStats.observe st) := by
  induction vs generalizing st with
  | nil => rfl
  | cons v vs ih =>
    rw [List.foldl_cons]
    exact ih (st.observe v)

theorem foldl_bump_none (vs : List Float64) :
    vs.foldl (fun o v => some (bump o v)) none = aggregate vs := by
  cases vs with
  | nil => rfl
  | cons v vs =>
    rw [List.foldl_cons]
    exact foldl_bump_some vs (TempStats.first v)

/-- The accumulator of a key after the scan is the aggregate of the values of its
well-formed records, taken in input order. -/
theorem lookup_scan (pf : GoString → Option Float64) (key : GoString)
    (lines : List GoString) :
    lookup key (scan pf lines) = aggregate (valuesOf pf key lines) := by
  unfold scan
  rw [lookup_foldl_step, ← foldl_bump_none]
  rfl

theorem aggregate_eq_some {vs : List Float64} {st : TempStats} (h : aggregate vs = some st) :
    ∃ v rest, vs = v :: rest ∧ st = rest.foldl TempStats.observe (TempStats.first v) := by
  cases vs with
  | nil => cases h
  | cons v rest => exact ⟨v, rest, rfl, by simpa [aggregate] using h.symm⟩

theorem foldl_observe_Count (vs : List Float64) (st : TempStats) :
    (vs.foldl TempStats.observe st).Count = st.Count + vs.length := by
  induction vs generalizing st with
  | nil => rfl
  | cons v vs ih =>
    rw [List.foldl_cons, ih]
    simp [TempStats.observe]
    omega

theorem foldl_observe_Sum (vs : List Float64) (st : TempStats) :
    (vs.foldl TempStats.observe st).Sum = vs.foldl Float64.add st.Sum := by
  induction vs generalizing st with
  | nil => rfl
  | cons v vs ih =>
    rw [List.foldl_cons, ih]
    rfl

/-! ## The order of binary64 away from NaN -/

theorem Float64.le_self {x : Float64} (hx : x.isNaN = false) :
    Float64.le x x = true := by
  simp [Float64.le, hx]

theorem Float64.le_of_lt_true {x y : Float64} (h : Float64.lt x y = true) :
    Float64.le x y = true := by
  simp only [Float64.lt, Float64.le, Bool.and_eq_true, decide_eq_true_eq] at h ⊢
  exact ⟨h.1, Int.le_of_lt h.2⟩

theorem Float64.le_of_lt_false {x y : Float64} (hx : x.isNaN = false) (hy : y.isNaN = false)
    (h : Float64.lt x y = false) : Float64.le y x = true := by
  simp only [Float64.lt, hx, hy, Bool.not_false, Bool.true_and, decide_eq_false_iff_not,
    not_lt] at h
  simp [Float64.le, hx, hy, h]

theorem Float64.le_chain {x y z : Float64} (h1 : Float64.le x y = true)
    (h2 : Float64.le y z = true) : Float64.le x z = true := by
  simp only [Float64.le, Bool.and_eq_true, decide_eq_true_eq] at h1 h2 ⊢
  exact ⟨⟨h1.1.1, h2.1.2⟩, Int.le_trans h1.2 h2.2⟩

/-! ## Extremes of the observed values -/

theorem observe_Min_spec (st : TempStats) (v : Float64) (seen : List Float64)
    (hm : st.Min.isNaN = false) (hv : v.isNaN = false) (hmem : st.Min ∈ seen)
    (hle : ∀ w ∈ seen, Float64.le st.Min w = true) :
    (st.observe v).Min.isNaN = false ∧ (st.observe v).Min ∈ seen ++ [v] ∧
      ∀ w ∈ seen ++ [v], Float64.le (st.observe v).Min w = true := by
  cases h : Float64.lt v st.Min with
  | true =>
    have hmin : (st.observe v).Min = v := by simp [TempStats.observe, h]
    rw [hmin]
    refine ⟨hv, by simp, ?_⟩
    intro w hw
    rcases List.mem_append.1 hw with hw | hw
    · exact Float64.le_chain (Float64.le_of_lt_true h) (hle w hw)
    · rw [List.mem_singleton.1 hw]
      exact Float64.le_self hv
  | false =>
    have hmin : (st.observe v).Min = st.Min := by simp [TempStats.observe, h]
    rw [hmin]
    refine ⟨hm, List.mem_append_left _ hmem, ?_⟩
    intro w hw
    rcases List.mem_append.1 hw with hw | hw
    · exact hle w hw
    · rw [List.mem_singleton.1 hw]
      exact Float64.le_of_lt_false hv hm h

theorem observe_Max_spec (st : TempStats) (v : Float64) (seen : List Float64)
    (hm : st.Max.isNaN = false) (hv : v.isNaN = false) (hmem : st.Max ∈ seen)
    (hle : ∀ w ∈ seen, Float64.le w st.Max = true) :
    (st.observe v).Max.isNaN = false ∧ (st.observe v).Max ∈ seen ++ [v] ∧
      ∀ w ∈ seen ++ [v], Float64.le w (st.observe v).Max = true := by
  cases h : Float64.lt st.Max v with
  | true =>
    have hmax : (st.observe v).Max = v := by simp [TempStats.observe, h]
    rw [hmax]
    refine ⟨hv, by simp, ?_⟩
    intro w hw
    rcases List.mem_append.1 hw with hw | hw
    · exact Float64.le_chain (hle w hw) (Float64.le_of_lt_true h)
    · rw [List.mem_singleton.1 hw]
      exact Float64.le_self hv
  | false =>
    have hmax : (st.observe v).Max = st.Max := by simp [TempStats.observe, h]
    rw [hmax]
    refine ⟨hm, List.mem_append_left _ hmem, ?_⟩
    intro w hw
    rcases List.mem_append.1 hw with hw | hw
    · exact hle w hw
    · rw [List.mem_singleton.1 hw]
      exact Float64.le_of_lt_false hm hv h

theorem foldl_observe_Min (vs : List Float64) (st : TempStats) (seen : List Float64)
    (hvs : ∀ v ∈ vs, v.isNaN = false) (hm : st.Min.isNaN = false) (hmem : st.Min ∈ seen)
    (hle : ∀ w ∈ seen, Float64.le st.Min w = true) :
    (vs.foldl TempStats.observe st).Min ∈ seen ++ vs ∧
      ∀ w ∈ seen ++ vs, Float64.le (vs.foldl TempStats.observe st).Min w = true := by
  induction vs generalizing st seen with
  | nil => simpa using ⟨hmem, hle⟩
  | cons v vs ih =>
    obtain ⟨h1, h2, h3⟩ :=
      observe_Min_spec st v seen hm (hvs v (List.mem_cons_self v vs)) hmem hle
    have := ih (st.observe v) (seen ++ [v])
      (fun w hw => hvs w (List.mem_cons_of_mem v hw)) h1 h2 h3
    simpa [List.append_assoc] using this

theorem foldl_observe_Max (vs : List Float64) (st : TempStats) (seen : List Float64)
    (hvs : ∀ v ∈ vs, v.isNaN = false) (hm : st.Max.isNaN = false) (hmem : st.Max ∈ seen)
    (hle : ∀ w ∈ seen, Float64.le w st.Max = true) :
    (vs.foldl TempStats.observe st).Max ∈ seen ++ vs ∧
      ∀ w ∈ seen ++ vs, Float64.le w (vs.foldl TempStats.observe st).Max = true := by
  induction vs generalizing st seen with
  | nil => simpa using ⟨hmem, hle⟩
  | cons v vs ih =>
    obtain ⟨h1, h2, h3⟩ :=
      observe_Max_spec st v seen hm (hvs v (List.mem_cons_self v vs)) hmem hle
    have := ih (st.observe v) (seen ++ [v])
      (fun w hw => hvs w (List.mem_cons_of_mem v hw)) h1 h2 h3
    simpa [List.append_assoc] using this

/-- The extremes kept by an accumulator over values none of which is NaN. -/
theorem aggregate_extremes (vs : List Float64) (st : TempStats)
    (h : aggregate vs = some st) (hvs : ∀ v ∈ vs, v.isNaN = false) :
    (st.Min ∈ vs ∧ ∀ v ∈ vs, Float64.le st.Min v = true) ∧
      (st.Max ∈ vs ∧ ∀ v ∈ vs, Float64.le v st.Max = true) := by
  obtain ⟨v, rest, rfl, rfl⟩ := aggregate_eq_some h
  have hv : v.isNaN = false := hvs v (List.mem_cons_self v rest)
  have hrest : ∀ w ∈ rest, w.isNaN = false := fun w hw => hvs w (List.mem_cons_of_mem v hw)
  have hone : ∀ w ∈ [v], Float64.le v w = true := by
    intro w hw
    rw [List.mem_singleton.1 hw]
    exact Float64.le_self hv
  have hone2 : ∀ w ∈ [v], Float64.le w v = true := by
    intro w hw
    rw [List.mem_singleton.1 hw]
    exact Float64.le_self hv
  exact ⟨foldl_observe_Min rest (TempStats.first v) [v] hrest hv (List.mem_singleton_self v) hone,
    foldl_observe_Max rest (TempStats.first v) [v] hrest hv (List.mem_singleton_self v) hone2⟩

/-! ## The byte-wise order and `sort.Strings` -/

theorem strLess_irrefl (a : GoString) : strLess a a = false := by
  induction a with
  | nil => rfl
  | cons x xs ih => simp [strLess, ih]

theorem strLess_asymm {a b : GoString} (h : strLess a b = true) : strLess b a = false := by
  induction a generalizing b with
  | nil => cases b <;> simp [strLess] at h ⊢
  | cons x xs ih =>
    cases b with
    | nil => simp [strLess] at h
    | cons y ys =>
      simp only [strLess] at h ⊢
      split_ifs at h ⊢ with h1 h2 h3 <;>
        first
          | rfl
          | omega
          | exact ih h

theorem strLess_connex {a b : GoString} (h1 : strLess a b = false)
    (h2 : strLess b a = false) : a = b := by
  induction a generalizing b with
  | nil => cases b <;> simp [strLess] at h1 ⊢
  | cons x xs ih =>
    cases b with
    | nil => simp [strLess] at h2
    | cons y ys =>
      simp only [strLess] at h1 h2
      split_ifs at h1 h2 with h3 h4
      have hxy : x = y := by omega
      rw [hxy, ih h1 h2]

theorem strLess_trans {a b c : GoString} (h1 : strLess a b = true)
    (h2 : strLess b c = true) : strLess a c = true := by
  induction a generalizing b c with
  | nil =>
    cases b with
    | nil => simp [strLess] at h1
    | cons y ys =>
      cases c with
      | nil => simp [strLess] at h2
      | cons z zs => rfl
  | cons x xs ih =>
    cases b with
    | nil => simp [strLess] at h1
    | cons y ys =>
      cases c with
      | nil => simp [strLess] at h2
      | cons z zs =>
        simp only [strLess] at h1 h2 ⊢
        split_ifs at h1 h2 ⊢ with h3 h4 h5 h6 h7 h8 h9 h10 h11 <;>
          first
            | rfl
            | omega
            | exact ih h1 h2

/-- The order `a ≤ b` that goes with `strLess`. -/
theorem strLess_false_trans {a b c : GoString} (h1 : strLess b a = false)
    (h2 : strLess c b = false) : strLess c a = false := by
  cases h : strLess c a with
  | false => rfl
  | true =>
    cases hab : strLess a b with
    | true => rw [strLess_trans h hab] at h2; cases h2
    | false =>
      rw [strLess_connex hab h1] at h
      rw [h] at h2
      cases h2

theorem insertSorted_perm (s : GoString) (l : List GoString) :
    (insertSorted s l).Perm (s :: l) := by
  induction l with
  | nil => exact List.Perm.refl _
  | cons t ts ih =>
    unfold insertSorted
    split_ifs
    · exact (List.Perm.cons t ih).trans (List.Perm.swap s t ts)
    · exact List.Perm.refl _

theorem sortStrings_perm (l : List GoString) : (sortStrings l).Perm l := by
  induction l with
  | nil => exact List.Perm.refl _
  | cons s ss ih => exact (insertSorted_perm s (sortStrings ss)).trans (List.Perm.cons s ih)

theorem insertSorted_ascending (s : GoString) (l : List GoString)
    (h : l.Pairwise (fun a b => strLess b a = false)) :
    (insertSorted s l).Pairwise (fun a b => strLess b a = false) := by
  induction l with
  | nil => simp [insertSorted]
  | cons t ts ih =>
    obtain ⟨ht, hts⟩ := List.pairwise_cons.1 h
    unfold insertSorted
    split_ifs with hlt
    · refine List.pairwise_cons.2 ⟨?_, ih hts⟩
      intro x hx
      rcases List.mem_cons.1 ((insertSorted_perm s ts).subset hx) with hx | hx
      · rw [hx]
        exact strLess_asymm hlt
      · exact ht x hx
    · have hst : strLess t s = false := by simpa using hlt
      refine List.pairwise_cons.2 ⟨?_, h⟩
      intro x hx
      rcases List.mem_cons.1 hx with hx | hx
      · rw [hx]
        exact hst
      · exact strLess_false_trans hst (ht x hx)

theorem sortStrings_ascending (l : List GoString) :
    (sortStrings l).Pairwise (fun a b => strLess b a = false) := by
  induction l with
  | nil => exact List.Pairwise.nil
  | cons s ss ih => exact insertSorted_ascending s (sortStrings ss) ih

/-- Sorting strings that are pairwise distinct gives a strictly ascending list. -/
theorem sortStrings_strict (l : List GoString) (h : l.Nodup) :
    (sortStrings l).Pairwise (fun a b => strLess a b = true) := by
  have hnd : (sortStrings l).Nodup := (sortStrings_perm l).nodup_iff.2 h
  have hboth := (sortStrings_ascending l).and hnd
  refine hboth.imp ?_
  intro a b hab
  cases hlt : strLess a b with
  | true => rfl
  | false => exact absurd (strLess_connex hlt hab.1) hab.2

/-! ## The keys of the table -/

theorem nodup_keysOf_record (c : GoString) (temp : Float64) (stats : StatsMap)
    (h : (keysOf stats).Nodup) : (keysOf (record stats c temp)).Nodup := by
  rw [keysOf_record]
  split_ifs with hc
  · exact h
  · exact List.Nodup.append h (List.nodup_singleton c) (by simpa using hc)

theorem nodup_keysOf_foldl_step (pf : GoString → Option Float64) (lines : List GoString)
    (stats : StatsMap) (h : (keysOf stats).Nodup) :
    (keysOf (lines.foldl (step pf) stats)).Nodup := by
  induction lines generalizing stats with
  | nil => exact h
  | cons line rest ih =>
    rw [List.foldl_cons]
    apply ih
    unfold step
    cases parseLine pf line with
    | none => exact h
    | some r => exact nodup_keysOf_record r.1 r.2 stats h

/-- A key is stored at most once in the table built by the scan. -/
theorem nodup_keysOf_scan (pf : GoString → Option Float64) (lines : List GoString) :
    (keysOf (scan pf lines)).Nodup :=
  nodup_keysOf_foldl_step pf lines [] List.nodup_nil

theorem valuesOf_eq_nil_iff (pf : GoString → Option Float64) (key : GoString)
    (lines : List GoString) :
    valuesOf pf key lines = [] ↔ ∀ value, (key, value) ∉ records pf lines := by
  unfold valuesOf
  rw [List.map_eq_nil_iff, List.filter_eq_nil_iff]
  constructor
  · intro h value hmem
    exact h (key, value) hmem (by simp)
  · intro h r hr hk
    have hk2 : r.1 = key := by simpa using hk
    obtain ⟨k, v⟩ := r
    simp only at hk2
    subst hk2
    exact h v hr

/-- The keys of the table are the first fields of the well-formed records. -/
theorem mem_keysOf_scan (pf : GoString → Option Float64) (key : GoString)
    (lines : List GoString) :
    key ∈ keysOf (scan pf lines) ↔ ∃ value, (key, value) ∈ records pf lines := by
  have h1 := lookup_eq_none_iff key (scan pf lines)
  rw [lookup_scan] at h1
  have h2 : aggregate (valuesOf pf key lines) = none ↔ valuesOf pf key lines = [] := by
    cases valuesOf pf key lines <;> simp [aggregate]
  rw [h2, valuesOf_eq_nil_iff] at h1
  constructor
  · intro hk
    by_contra hne
    exact (h1.1 (fun value hv => hne ⟨value, hv⟩)) hk
  · rintro ⟨value, hv⟩
    by_contra hk
    exact h1.2 hk value hv

/-! ## The rendering loop -/

theorem intercalate_cons (sep e : GoString) (es : List GoString) :
    List.intercalate sep (e :: es) = e ++ (es.map (fun x => sep ++ x)).flatten := by
  induction es generalizing e with
  | nil => simp [List.intercalate]
  | cons e2 es ih =>
    have := ih e2
    simp only [List.intercalate] at this ⊢
    simp [List.intersperse, this]

theorem renderLoop_rest (stats es : StatsMap)
    (hes : ∀ e ∈ es, lookup e.1 stats = some e.2) (result : GoString) :
    renderLoop stats (keysOf es) (result, false) =
      some (result ++ (es.map (fun e => str ", " ++ entry e.1 e.2)).flatten, false) := by
  induction es generalizing result with
  | nil => simp [keysOf, renderLoop]
  | cons e es ih =>
    have he := hes e (List.mem_cons_self e es)
    have ih2 := ih (fun x hx => hes x (List.mem_cons_of_mem e hx))
    simp only [keysOf, List.map_cons, renderLoop, he] at ih2 ⊢
    rw [ih2]
    simp [List.append_assoc]

/-- The text produced by lines 75-86 when the cities are the keys of `es`, in that
order, and every one of them is in the table. -/
theorem render_entries (stats es : StatsMap)
    (hes : ∀ e ∈ es, lookup e.1 stats = some e.2) :
    render stats (keysOf es) =
      some (str "\x7b" ++ List.intercalate (str ", ") (es.map (fun e => entry e.1 e.2)) ++
        str "\x7d") := by
  cases es with
  | nil => rfl
  | cons e es =>
    have he := hes e (List.mem_cons_self e es)
    have hr := renderLoop_rest stats es (fun x hx => hes x (List.mem_cons_of_mem e hx))
      (str "\x7b" ++ entry e.1 e.2)
    have h0 : renderLoop stats (keysOf (e :: es)) (str "\x7b", true) =
        renderLoop stats (keysOf es) (str "\x7b" ++ entry e.1 e.2, false) := by
      simp [keysOf, renderLoop, he]
    unfold render
    rw [h0, hr]
    simp [intercalate_cons, List.map_map, Function.comp_def, List.append_assoc]

theorem lookup_of_mem_sortedEntries (stats : StatsMap) (e : GoString × TempStats)
    (h : e ∈ sortedEntries stats) : lookup e.1 stats = some e.2 := by
  unfold sortedEntries at h
  obtain ⟨c, -, hc⟩ := List.mem_filterMap.1 h
  cases hl : lookup c stats with
  | none => simp [hl] at hc
  | some st =>
    simp only [hl, Option.map_some', Option.some.injEq] at hc
    rw [← hc]
    exact hl

theorem keysOf_filterMap_lookup (stats : StatsMap) (ks : List GoString)
    (h : ∀ c ∈ ks, c ∈ keysOf stats) :
    keysOf (ks.filterMap (fun city => (lookup city stats).map (fun st => (city, st)))) = ks := by
  induction ks with
  | nil => rfl
  | cons c cs ih =>
    have hc : lookup c stats ≠ none :=
      fun hn => (lookup_eq_none_iff c stats).1 hn (h c (List.mem_cons_self c cs))
    obtain ⟨st, hst⟩ := Option.ne_none_iff_exists'.1 hc
    have ih2 := ih (fun x hx => h x (List.mem_cons_of_mem c hx))
    simp only [keysOf] at ih2 ⊢
    simp [List.filterMap_cons, hst, ih2]

/-- The keys of the sorted entries are the sorted keys. -/
theorem keysOf_sortedEntries (stats : StatsMap) :
    keysOf (sortedEntries stats) = sortStrings (keysOf stats) :=
  keysOf_filterMap_lookup stats (sortStrings (keysOf stats))
    (fun _ hc => (sortStrings_perm (keysOf stats)).subset hc)

/-- The summary of any table: its entries in ascending order of keys, separated by
`, ` between braces. -/
theorem summary_eq (stats : StatsMap) :
    summary stats =
      some (str "\x7b" ++
        List.intercalate (str ", ") ((sortedEntries stats).map (fun e => entry e.1 e.2)) ++
        str "\x7d") := by
  unfold summary summaryFrom
  rw [← keysOf_sortedEntries]
  exact render_entries stats (sortedEntries stats) (lookup_of_mem_sortedEntries stats)

theorem lookup_of_mem (stats : StatsMap) (h : (keysOf stats).Nodup)
    (e : GoString × TempStats) (he : e ∈ stats) : lookup e.1 stats = some e.2 := by
  induction stats with
  | nil => cases he
  | cons x rest ih =>
    obtain ⟨k, st⟩ := x
    have hnd := List.nodup_cons.1 (show (k :: keysOf rest).Nodup from h)
    rcases List.mem_cons.1 he with he | he
    · subst he
      simp [lookup]
    · have hne : ¬ k = e.1 := by
        intro hk
        apply hnd.1
        rw [hk]
        exact List.mem_map_of_mem Prod.fst he
      simpa [lookup, hne] using ih hnd.2 he

theorem filterMap_lookup_keys (stats l : StatsMap)
    (h : ∀ e ∈ l, lookup e.1 stats = some e.2) :
    (keysOf l).filterMap (fun city => (lookup city stats).map (fun st => (city, st))) = l := by
  induction l with
  | nil => rfl
  | cons e es ih =>
    have he := h e (List.mem_cons_self e es)
    have ih2 := ih (fun x hx => h x (List.mem_cons_of_mem e hx))
    simp only [keysOf] at ih2 ⊢
    simp [List.filterMap_cons, he, ih2]

/-- The sorted entries are the entries of the table, reordered. -/
theorem sortedEntries_perm (stats : StatsMap) (h : (keysOf stats).Nodup) :
    (sortedEntries stats).Perm stats := by
  have h1 := filterMap_lookup_keys stats stats (lookup_of_mem stats h)
  have h2 := (sortStrings_perm (keysOf stats)).filterMap
    (fun city => (lookup city stats).map (fun st => (city, st)))
  rw [h1] at h2
  exact h2

/-! ## Splitting a line -/

theorem split_of_not_mem (sep : Nat) (s : GoString) (h : sep ∉ s) : split sep s = [s] := by
  induction s with
  | nil => rfl
  | cons c cs ih =>
    have hc : ¬ c = sep := fun e => h (e ▸ List.mem_cons_self c cs)
    have hcs : sep ∉ cs := fun e => h (List.mem_cons_of_mem c e)
    simp [split, hc, ih hcs]

theorem splitFirst_of_not_mem (sep : Nat) (s : GoString) (h : sep ∉ s) :
    splitFirst sep s = [s] := by
  induction s with
  | nil => rfl
  | cons c cs ih =>
    have hc : ¬ c = sep := fun e => h (e ▸ List.mem_cons_self c cs)
    have hcs : sep ∉ cs := fun e => h (List.mem_cons_of_mem c e)
    simp [splitFirst, hc, ih hcs]

theorem split_append_sep (sep : Nat) (p q : GoString) (h : sep ∉ p) :
    split sep (p ++ sep :: q) = p :: split sep q := by
  induction p with
  | nil => simp [split]
  | cons c cs ih =>
    have hc : ¬ c = sep := fun e => h (e ▸ List.mem_cons_self c cs)
    have hcs : sep ∉ cs := fun e => h (List.mem_cons_of_mem c e)
    simp [split, hc, ih hcs]

theorem splitFirst_append_sep (sep : Nat) (p q : GoString) (h : sep ∉ p) :
    splitFirst sep (p ++ sep :: q) = [p, q] := by
  induction p with
  | nil => simp [splitFirst]
  | cons c cs ih =>
    have hc : ¬ c = sep := fun e => h (e ▸ List.mem_cons_self c cs)
    have hcs : sep ∉ cs := fun e => h (List.mem_cons_of_mem c e)
    simp [splitFirst, hc, ih hcs]

/-- A text in which `sep` occurs, cut at the first occurrence. -/
theorem exists_first_sep (sep : Nat) (s : GoString) (h : sep ∈ s) :
    ∃ p q, s = p ++ sep :: q ∧ sep ∉ p := by
  induction s with
  | nil => cases h
  | cons c cs ih =>
    by_cases hc : c = sep
    · exact ⟨[], cs, by simp [hc], by simp⟩
    · have hcs : sep ∈ cs := by
        rcases List.mem_cons.1 h with h | h
        · exact absurd h.symm hc
        · exact h
      obtain ⟨p, q, hs, hp⟩ := ih hcs
      refine ⟨c :: p, q, by simp [hs], ?_⟩
      intro hmem
      rcases List.mem_cons.1 hmem with hmem | hmem
      · exact hc hmem.symm
      · exact hp hmem

/-- The call `strings.Split` returns one more field than there are separators. -/
theorem length_split (sep : Nat) (s : GoString) :
    (split sep s).length = s.count sep + 1 := by
  induction s with
  | nil => rfl
  | cons c cs ih =>
    by_cases hc : c = sep
    · subst hc
      simp [split, ih]
    · have hne : (c == sep) = false := by simpa using hc
      rw [List.count_cons, hne]
      simp only [split, hc, if_false]
      cases hsp : split sep cs with
      | nil => simp [hsp] at ih
      | cons p ps => simpa [hsp] using ih

/-- The record read from a line whose first `;` is followed by `q`. -/
theorem parseLine_append_sep (pf : GoString → Option Float64) (p q : GoString)
    (hp : semicolon ∉ p) :
    parseLine pf (p ++ semicolon :: q) =
      if semicolon ∈ q then none else (pf q).map (fun temp => (p, temp)) := by
  unfold parseLine
  rw [split_append_sep semicolon p q hp]
  split_ifs with hq
  · have hlen := length_split semicolon q
    have hpos : 0 < q.count semicolon := List.count_pos_iff.2 hq
    rcases hsp : split semicolon q with _ | ⟨a, _ | ⟨b, t⟩⟩
    · simp [hsp] at hlen
    · rw [hsp] at hlen
      simp at hlen
      omega
    · rfl
  · rw [split_of_not_mem semicolon q hq]
    cases h : pf q <;> simp [h]

theorem parseLineSpec_append_sep (pf : GoString → Option Float64) (p q : GoString)
    (hp : semicolon ∉ p) :
    parseLineSpec pf (p ++ semicolon :: q) = (pf q).map (fun temp => (p, temp)) := by
  unfold parseLineSpec
  rw [splitFirst_append_sep semicolon p q hp]
  cases h : pf q <;> simp [h]

theorem parseLine_of_not_mem (pf : GoString → Option Float64) (line : GoString)
    (h : semicolon ∉ line) : parseLine pf line = none := by
  unfold parseLine
  rw [split_of_not_mem semicolon line h]

theorem parseLineSpec_of_not_mem (pf : GoString → Option Float64) (line : GoString)
    (h : semicolon ∉ line) : parseLineSpec pf line = none := by
  unfold parseLineSpec
  rw [splitFirst_of_not_mem semicolon line h]

/-! ## Skipped lines -/

theorem wellFormed_eq_none_iff (pf : GoString → Option Float64) (line : GoString) :
    wellFormed pf line = none ↔ malformed pf line = true := by
  unfold wellFormed malformed
  by_cases h : (split semicolon line).length = 2
  · simp [h]
  · simp [h]

theorem step_of_malformed (pf : GoString → Option Float64) (stats : StatsMap)
    (line : GoString) (h : malformed pf line = true) : step pf stats line = stats := by
  unfold step
  rw [parseLine_eq_wellFormed, (wellFormed_eq_none_iff pf line).2 h]

theorem foldl_step_filter (pf : GoString → Option Float64) (lines : List GoString)
    (stats : StatsMap) :
    lines.foldl (step pf) stats =
      (lines.filter (fun l => !malformed pf l)).foldl (step pf) stats := by
  induction lines generalizing stats with
  | nil => rfl
  | cons line rest ih =>
    cases h : malformed pf line with
    | true =>
      rw [List.foldl_cons, step_of_malformed pf stats line h, ih]
      simp [List.filter_cons, h]
    | false =>
      rw [List.foldl_cons, ih]
      simp [List.filter_cons, h]

theorem scan_of_all_malformed (pf : GoString → Option Float64) (lines : List GoString)
    (h : ∀ l ∈ lines, malformed pf l = true) : scan pf lines = [] := by
  unfold scan
  rw [foldl_step_filter]
  have : lines.filter (fun l => !malformed pf l) = [] := by
    rw [List.filter_eq_nil_iff]
    intro l hl
    simp [h l hl]
  rw [this]
  rfl

/-! ## The model of the number parser rejects `;` -/

theorem mem_dropWhile_of_false (p : Nat → Bool) (x : Nat) (l : GoString) (hx : x ∈ l)
    (hp : p x = false) : x ∈ l.dropWhile p := by
  induction l with
  | nil => cases hx
  | cons c cs ih =>
    rw [List.dropWhile_cons]
    split_ifs with hc
    · rcases List.mem_cons.1 hx with h | h
      · rw [← h, hp] at hc
        cases hc
      · exact ih h
    · exact hx

theorem map_lower_ne (s t : GoString) (h : semicolon ∈ s) (ht : semicolon ∉ t) :
    s.map lower ≠ t := by
  intro e
  apply ht
  rw [← e]
  exact List.mem_map.2 ⟨semicolon, h, by decide⟩

theorem special_of_semicolon (s : GoString) (h : semicolon ∈ s) : special s = none := by
  have hnan : semicolon ∉ str "nan" := by decide
  have hinf : semicolon ∉ str "inf" := by decide
  have hinfinity : semicolon ∉ str "infinity" := by decide
  unfold special
  rw [if_neg (map_lower_ne s _ h hnan)]
  split
  · next cs =>
    have hcs : semicolon ∈ cs := by
      rcases List.mem_cons.1 h with h | h
      · exact absurd h (by decide)
      · exact h
    rw [if_neg]
    rintro (e | e)
    · exact map_lower_ne cs _ hcs hinf e
    · exact map_lower_ne cs _ hcs hinfinity e
  · next cs =>
    have hcs : semicolon ∈ cs := by
      rcases List.mem_cons.1 h with h | h
      · exact absurd h (by decide)
      · exact h
    rw [if_neg]
    rintro (e | e)
    · exact map_lower_ne cs _ hcs hinf e
    · exact map_lower_ne cs _ hcs hinfinity e
  · rw [if_neg]
    rintro (e | e)
    · exact map_lower_ne s _ h hinf e
    · exact map_lower_ne s _ h hinfinity e

theorem readSign_of_semicolon (s : GoString) (h : semicolon ∈ s) :
    semicolon ∈ (readSign s).2 := by
  unfold readSign
  split
  · rcases List.mem_cons.1 h with h | h
    · exact absurd h (by decide)
    · exact h
  · rcases List.mem_cons.1 h with h | h
    · exact absurd h (by decide)
    · exact h
  · exact h

theorem readFraction_of_semicolon (s : GoString) (h : semicolon ∈ s) :
    semicolon ∈ (readFraction s).2 := by
  unfold readFraction
  split
  · rcases List.mem_cons.1 h with h | h
    · exact absurd h (by decide)
    · exact mem_dropWhile_of_false isDigit semicolon _ h (by decide)
  · exact h

theorem readExp_of_semicolon (s : GoString) (h : semicolon ∈ s) : readExp s = none := by
  cases s with
  | nil => cases h
  | cons c cs =>
    simp only [readExp]
    split_ifs with hc hd
    · have hcs : semicolon ∈ cs := by
        rcases List.mem_cons.1 h with h | h
        · rw [← h] at hc
          exact absurd hc (by decide)
        · exact h
      have hds := readSign_of_semicolon cs hcs
      have hall : (readSign cs).2.all isDigit = false := by
        rw [List.all_eq_false]
        exact ⟨semicolon, hds, by decide⟩
      rw [hall] at hd
      exact absurd hd.2 (by decide)
    · rfl
    · rfl

/-- The model of the number parser accepts no text in which `;` occurs. -/
theorem parseFloat_of_semicolon (s : GoString) (h : semicolon ∈ s) : parseFloat s = none := by
  unfold parseFloat
  rw [special_of_semicolon s h]
  have h1 := readSign_of_semicolon s h
  have h2 := mem_dropWhile_of_false isDigit semicolon _ h1 (by decide)
  have h3 := readExp_of_semicolon _ (readFraction_of_semicolon _ h2)
  simp only [h3]
  split_ifs <;> rfl

/-! ## Entries of the sorted table -/

theorem mem_of_lookup (key : GoString) (st : TempStats) (stats : StatsMap)
    (h : lookup key stats = some st) : (key, st) ∈ stats := by
  induction stats with
  | nil => cases h
  | cons e rest ih =>
    obtain ⟨k, x⟩ := e
    by_cases hk : k = key
    · simp only [lookup, hk, if_true, Option.some.injEq] at h
      simp [hk, h]
    · simp only [lookup, hk, if_false] at h
      exact List.mem_cons_of_mem _ (ih h)

theorem mem_sortedEntries_of_lookup (key : GoString) (st : TempStats) (stats : StatsMap)
    (hnd : (keysOf stats).Nodup) (h : lookup key stats = some st) :
    (key, st) ∈ sortedEntries stats :=
  (sortedEntries_perm stats hnd).symm.subset (mem_of_lookup key st stats h)

/-- The summary printed for a file, written out. -/
theorem run_eq (pf : GoString → Option Float64) (lines : List GoString) :
    run pf lines =
      some (str "\x7b" ++
        List.intercalate (str ", ")
          ((sortedEntries (scan pf lines)).map (fun e => entry e.1 e.2)) ++
        str "\x7d") :=
  summary_eq (scan pf lines)

/-! ## The model of binary64 on known values -/

/-- Known binary64 values: 0.1 is `0x1999999999999A · 2^(-56)`, the largest finite
value is `(2^53 - 1) · 2^971`, the next decimal above the rounding boundary is out of
range, the smallest subnormal is `2^(-1074)`, and `2^53 + 1` rounds to `2^53`. -/
theorem parseFloat_samples :
    parseFloat (str "0.1") = some (.fin false (0x1999999999999A * 2 ^ 1018)) ∧
      parseFloat (str "1.7976931348623157e308") =
        some (.fin false ((2 ^ 53 - 1) * 2 ^ 2045)) ∧
      parseFloat (str "1.7976931348623159e308") = none ∧
      parseFloat (str "5e-324") = some (.fin false 1) ∧
      parseFloat (str "9007199254740993") = some (.fin false (2 ^ 53 * Float64.one)) ∧
      Float64.ofCount 9007199254740993 = .fin false (2 ^ 53 * Float64.one) ∧
      formatF1 (.fin true (Float64.one / 32)) = str "-0.0" ∧
      formatF1 (.fin false (Float64.one / 4)) = str "0.2" ∧
      formatF1 (.fin false (3 * Float64.one / 4)) = str "0.8" := by
  decide!

/-! ## Rounding to the nearest integer -/

theorem Float64.one_pos : 0 < Float64.one := by
  unfold Float64.one
  positivity

/-- The integer `roundEven n d` is nearest to `n / d`: it is within one half of it, and
when it is exactly one half away it is even. -/
theorem roundEven_nearest (n d : Nat) (hd : 0 < d) :
    2 * (Float64.roundEven n d * d - n) ≤ d ∧ 2 * (n - Float64.roundEven n d * d) ≤ d ∧
      ((2 * (Float64.roundEven n d * d) = 2 * n + d ∨
          2 * (Float64.roundEven n d * d) + d = 2 * n) →
        Float64.roundEven n d % 2 = 0) := by
  have hdm := Nat.div_add_mod n d
  have hr := Nat.mod_lt n hd
  have hmul : (n / d + 1) * d = d * (n / d) + d := by ring
  have hmul2 : n / d * d = d * (n / d) := Nat.mul_comm _ _
  unfold Float64.roundEven
  simp only []
  split_ifs with h
  · rw [hmul]
    rcases h with h | ⟨h1, h2⟩
    · refine ⟨by omega, by omega, ?_⟩
      intro hh
      omega
    · refine ⟨by omega, by omega, ?_⟩
      intro _
      omega
  · rw [hmul2]
    have h1 : ¬ d < 2 * (n % d) := fun hh => h (Or.inl hh)
    have h2 : 2 * (n % d) = d → ¬ n / d % 2 = 1 := fun e hh => h (Or.inr ⟨e, hh⟩)
    refine ⟨by omega, by omega, ?_⟩
    intro hh
    have : 2 * (n % d) = d := by omega
    have := h2 this
    omega

/-! ## The claims -/

/-- C1, as amended: for every input and every key of the table, provided that none
of the values of the well-formed records with that key is NaN, the `Min` kept (and
rendered) for the key is one of these values and is `<=` each of them, and the `Max`
is one of them and `>=` each of them. -/
theorem extremes_of_scan (pf : GoString → Option Float64) (lines : List GoString)
    (key : GoString) (st : TempStats) (h : lookup key (scan pf lines) = some st)
    (hnan : ∀ v ∈ valuesOf pf key lines, v.isNaN = false) :
    (st.Min ∈ valuesOf pf key lines ∧
        ∀ v ∈ valuesOf pf key lines, Float64.le st.Min v = true) ∧
      (st.Max ∈ valuesOf pf key lines ∧
        ∀ v ∈ valuesOf pf key lines, Float64.le v st.Max = true) := by
  rw [lookup_scan] at h
  exact aggregate_extremes (valuesOf pf key lines) st h hnan

/-- C1, witness: scenario 1 of the specification and the key `Hamburg`. -/
theorem extremes_of_scan_witness :
    lookup (str "Hamburg") (scan parseFloat scenario1) =
        some ⟨.fin false (12 * Float64.one), .fin false (33 * Float64.one / 2),
          .fin false (57 * Float64.one / 2), 2⟩ ∧
      (∀ v ∈ valuesOf parseFloat (str "Hamburg") scenario1, v.isNaN = false) ∧
      ((Float64.fin false (12 * Float64.one) ∈ valuesOf parseFloat (str "Hamburg") scenario1 ∧
          ∀ v ∈ valuesOf parseFloat (str "Hamburg") scenario1,
            Float64.le (.fin false (12 * Float64.one)) v = true) ∧
        (Float64.fin false (33 * Float64.one / 2) ∈
            valuesOf parseFloat (str "Hamburg") scenario1 ∧
          ∀ v ∈ valuesOf parseFloat (str "Hamburg") scenario1,
            Float64.le v (.fin false (33 * Float64.one / 2)) = true)) :=
  ⟨by decide!, by decide!,
    extremes_of_scan parseFloat scenario1 (str "Hamburg")
      ⟨.fin false (12 * Float64.one), .fin false (33 * Float64.one / 2),
        .fin false (57 * Float64.one / 2), 2⟩ (by decide!) (by decide!)⟩

/-- C1, counterexample: `ParseFloat` accepts `NaN`, and no comparison with NaN holds.
The same two records in the two orders leave different extremes in the table, and in
both cases the reported `Min` is not `<=` every value of the key, nor every value
`<=` the reported `Max`. -/
theorem extremes_counterexample :
    lookup (str "A") (scan parseFloat [str "A;NaN", str "A;1.0"]) =
        some ⟨.nan, .nan, .nan, 2⟩ ∧
      lookup (str "A") (scan parseFloat [str "A;1.0", str "A;NaN"]) =
        some ⟨.fin false Float64.one, .fin false Float64.one, .nan, 2⟩ ∧
      valuesOf parseFloat (str "A") [str "A;NaN", str "A;1.0"] =
        [.nan, .fin false Float64.one] ∧
      valuesOf parseFloat (str "A") [str "A;1.0", str "A;NaN"] =
        [.fin false Float64.one, .nan] ∧
      Float64.le .nan (.fin false Float64.one) = false ∧
      Float64.le (.fin false Float64.one) .nan = false := by
  decide!

/-- C2: for every input and every key of the table, `Count` is the number of
well-formed records with that key, `Sum` is the running total of their values added in
input order, and the entry rendered for the key in the summary shows
`Sum / float64(Count)` as its mean. -/
theorem count_sum_of_scan (pf : GoString → Option Float64) (lines : List GoString)
    (key : GoString) (st : TempStats) (h : lookup key (scan pf lines) = some st) :
    st.Count = (valuesOf pf key lines).length ∧
      st.Sum = total (valuesOf pf key lines) ∧
      (key, st) ∈ sortedEntries (scan pf lines) ∧
      run pf lines =
        some (str "\x7b" ++
          List.intercalate (str ", ")
            ((sortedEntries (scan pf lines)).map (fun e =>
              e.1 ++ str "=" ++ formatF1 e.2.Min ++ str "/" ++
                formatF1 (Float64.div e.2.Sum (Float64.ofCount e.2.Count)) ++ str "/" ++
                formatF1 e.2.Max)) ++
          str "\x7d") := by
  have hmem := mem_sortedEntries_of_lookup key st (scan pf lines) (nodup_keysOf_scan pf lines) h
  rw [lookup_scan] at h
  obtain ⟨v, rest, hvs, hst⟩ := aggregate_eq_some h
  refine ⟨?_, ?_, hmem, run_eq pf lines⟩
  · rw [hst, hvs, foldl_observe_Count]
    simp [TempStats.first]
    omega
  · rw [hst, hvs, foldl_observe_Sum]
    rfl

/-- C2, witness: scenario 1 of the specification and the key `Hamburg`, whose two
values 12.0 and 16.5 add up to 28.5. -/
theorem count_sum_of_scan_witness :
    lookup (str "Hamburg") (scan parseFloat scenario1) =
        some ⟨.fin false (12 * Float64.one), .fin false (33 * Float64.one / 2),
          .fin false (57 * Float64.one / 2), 2⟩ ∧
      2 = (valuesOf parseFloat (str "Hamburg") scenario1).length ∧
      Float64.fin false (57 * Float64.one / 2) =
        total (valuesOf parseFloat (str "Hamburg") scenario1) :=
  ⟨by decide!,
    (count_sum_of_scan parseFloat scenario1 (str "Hamburg")
      ⟨.fin false (12 * Float64.one), .fin false (33 * Float64.one / 2),
        .fin false (57 * Float64.one / 2), 2⟩ (by decide!)).1,
    (count_sum_of_scan parseFloat scenario1 (str "Hamburg")
      ⟨.fin false (12 * Float64.one), .fin false (33 * Float64.one / 2),
        .fin false (57 * Float64.one / 2), 2⟩ (by decide!)).2.1⟩

/-- C3: for every input, the keys of the table are exactly the first fields of the
well-formed records, no key is stored twice, and the keys of the entries of the
summary are the keys of the table, reordered. -/
theorem keys_of_scan (pf : GoString → Option Float64) (lines : List GoString) :
    (∀ key, key ∈ keysOf (scan pf lines) ↔ ∃ value, (key, value) ∈ records pf lines) ∧
      (keysOf (scan pf lines)).Nodup ∧
      (keysOf (sortedEntries (scan pf lines))).Perm (keysOf (scan pf lines)) := by
  refine ⟨fun key => mem_keysOf_scan pf key lines, nodup_keysOf_scan pf lines, ?_⟩
  rw [keysOf_sortedEntries]
  exact sortStrings_perm _

/-- C4: for every input, the summary is made of the entries of `sortedEntries`, in
this order, and their keys are strictly ascending in the byte-wise lexicographic
order; in particular no key is repeated. -/
theorem output_keys_ascending (pf : GoString → Option Float64) (lines : List GoString) :
    run pf lines =
        some (str "\x7b" ++
          List.intercalate (str ", ")
            ((sortedEntries (scan pf lines)).map (fun e => entry e.1 e.2)) ++
          str "\x7d") ∧
      (keysOf (sortedEntries (scan pf lines))).Pairwise (fun a b => strLess a b = true) ∧
      (keysOf (sortedEntries (scan pf lines))).Nodup := by
  refine ⟨run_eq pf lines, ?_, ?_⟩
  · rw [keysOf_sortedEntries]
    exact sortStrings_strict _ (nodup_keysOf_scan pf lines)
  · rw [keysOf_sortedEntries]
    exact (sortStrings_perm _).nodup_iff.2 (nodup_keysOf_scan pf lines)

/-- C5: a malformed line leaves the table as it is (every accumulator and the key
set), the step being a total function that raises nothing; hence the summary of any
input is the summary of the input without its malformed lines, and scenario 2 of the
specification gives `{Paris=20.0/21.0/22.0}`. -/
theorem skip_policy :
    (∀ (pf : GoString → Option Float64) (stats : StatsMap) (line : GoString),
        malformed pf line = true → step pf stats line = stats) ∧
      (∀ (pf : GoString → Option Float64) (lines : List GoString),
        scan pf lines = scan pf (lines.filter (fun l => !malformed pf l)) ∧
          run pf lines = run pf (lines.filter (fun l => !malformed pf l))) ∧
      malformed parseFloat (str "Paris;notanumber") = true ∧
      run parseFloat scenario2 = some (str "{Paris=20.0/21.0/22.0}") := by
  refine ⟨step_of_malformed, ?_, by decide!, by decide!⟩
  intro pf lines
  have h : scan pf lines = scan pf (lines.filter (fun l => !malformed pf l)) :=
    foldl_step_filter pf lines []
  refine ⟨h, ?_⟩
  unfold run
  rw [← h]

/-- C6, as amended: a finite value is rendered as the number of tenths nearest to its
exact value, ties going to the even number of tenths (the rounding of `%.1f` in Go),
so that scenario 1 of the specification gives
`{Bulawayo=8.9/8.9/8.9, Hamburg=12.0/14.2/16.5}`: the mean 14.25 is rendered as 14.2. -/
theorem rendering_of_scenario1 :
    (∀ (neg : Bool) (k : Nat),
        formatF1 (.fin neg k) =
          (if neg then str "-" else []) ++
            natToDec (Float64.roundEven (10 * k) Float64.one / 10) ++ str "." ++
            [digitByte (Float64.roundEven (10 * k) Float64.one % 10)] ∧
        2 * (Float64.roundEven (10 * k) Float64.one * Float64.one - 10 * k) ≤ Float64.one ∧
        2 * (10 * k - Float64.roundEven (10 * k) Float64.one * Float64.one) ≤ Float64.one ∧
        ((2 * (Float64.roundEven (10 * k) Float64.one * Float64.one) =
              2 * (10 * k) + Float64.one ∨
            2 * (Float64.roundEven (10 * k) Float64.one * Float64.one) + Float64.one =
              2 * (10 * k)) →
          Float64.roundEven (10 * k) Float64.one % 2 = 0)) ∧
      lookup (str "Hamburg") (scan parseFloat scenario1) =
        some ⟨.fin false (12 * Float64.one), .fin false (33 * Float64.one / 2),
          .fin false (57 * Float64.one / 2), 2⟩ ∧
      Float64.div (.fin false (57 * Float64.one / 2)) (Float64.ofCount 2) =
        .fin false (57 * Float64.one / 4) ∧
      run parseFloat scenario1 =
        some (str "{Bulawayo=8.9/8.9/8.9, Hamburg=12.0/14.2/16.5}") := by
  refine ⟨?_, by decide!, by decide!, by decide!⟩
  intro neg k
  exact ⟨rfl, roundEven_nearest (10 * k) Float64.one Float64.one_pos⟩

/-- C6, counterexample: on scenario 1 of the specification the program prints the
mean of Hamburg as 14.2, not as the 14.3 of rounding half away from zero. -/
theorem rendering_counterexample :
    run parseFloat scenario1 = some (str "{Bulawayo=8.9/8.9/8.9, Hamburg=12.0/14.2/16.5}") ∧
      decide (run parseFloat scenario1 =
        some (str "{Bulawayo=8.9/8.9/8.9, Hamburg=12.0/14.3/16.5}")) = false := by
  decide!

/-- C7: an input without any well-formed record (an empty file, or malformed lines
only) has the summary `{}`. -/
theorem empty_summary (pf : GoString → Option Float64) (lines : List GoString)
    (h : ∀ l ∈ lines, malformed pf l = true) : run pf lines = some (str "{}") := by
  unfold run
  rw [scan_of_all_malformed pf lines h]
  rfl

/-- C7, witness: a file of four malformed lines. -/
theorem empty_summary_witness :
    (∀ l ∈ onlyMalformed, malformed parseFloat l = true) ∧
      run parseFloat onlyMalformed = some (str "{}") :=
  ⟨by decide!, empty_summary parseFloat onlyMalformed (by decide!)⟩

/-- C8: for every input the summary is `{`, then one entry `key=min/mean/max` per
entry of the table, in ascending order of keys and separated by `, ` (nothing before
the first entry or after the last), then `}`; the keys of the table are distinct and
there are as many entries as keys. -/
theorem summary_shape (pf : GoString → Option Float64) (lines : List GoString) :
    run pf lines =
        some (str "\x7b" ++
          List.intercalate (str ", ")
            ((sortedEntries (scan pf lines)).map (fun e =>
              e.1 ++ str "=" ++ formatF1 e.2.Min ++ str "/" ++
                formatF1 (Float64.div e.2.Sum (Float64.ofCount e.2.Count)) ++ str "/" ++
                formatF1 e.2.Max)) ++
          str "\x7d") ∧
      (sortedEntries (scan pf lines)).Perm (scan pf lines) ∧
      (keysOf (scan pf lines)).Nodup ∧
      (sortedEntries (scan pf lines)).length = (keysOf (scan pf lines)).length := by
  have hnd := nodup_keysOf_scan pf lines
  have hperm := sortedEntries_perm (scan pf lines) hnd
  refine ⟨run_eq pf lines, hperm, hnd, ?_⟩
  rw [hperm.length_eq]
  simp [keysOf]

/-- C9, as amended: for every line, if the number parser returns an error on the
second field, the line is skipped: the table is left as it is, no accumulator created
and none changed. -/
theorem skip_of_parse_error (pf : GoString → Option Float64) (stats : StatsMap)
    (line : GoString) (h : pf ((split semicolon line).getD 1 []) = none) :
    step pf stats line = stats := by
  apply step_of_malformed
  unfold malformed
  rw [h]
  simp

/-- C9, witness: the line `Paris;notanumber` read after `Paris;20.0`. -/
theorem skip_of_parse_error_witness :
    parseFloat ((split semicolon (str "Paris;notanumber")).getD 1 []) = none ∧
      step parseFloat (scan parseFloat [str "Paris;20.0"]) (str "Paris;notanumber") =
        scan parseFloat [str "Paris;20.0"] :=
  ⟨by decide!,
    skip_of_parse_error parseFloat (scan parseFloat [str "Paris;20.0"])
      (str "Paris;notanumber") (by decide!)⟩

/-- C9, counterexample: the second fields `NaN` and `-Inf` denote no finite number,
yet `ParseFloat` accepts them and each line creates an accumulator. -/
theorem skip_counterexample :
    parseFloat (str "NaN") = some .nan ∧
      parseFloat (str "-Inf") = some (.inf true) ∧
      Float64.isFinite .nan = false ∧
      Float64.isFinite (.inf true) = false ∧
      step parseFloat [] (str "A;NaN") = [(str "A", TempStats.first .nan)] ∧
      step parseFloat [] (str "B;-Inf") = [(str "B", TempStats.first (.inf true))] := by
  decide!

/-- C10: provided that the number parser rejects every text in which `;` occurs,
the record read from a line by the program is the one read by the algorithm of the
specification, which splits once at the first `;`.  A line without `;` is skipped, a
line with two `;` or more is skipped, and a line with exactly one `;` is accepted if
and only if the text after it parses, its key being the text before it. -/
theorem parseLine_refines_spec (pf : GoString → Option Float64)
    (hpf : ∀ s, semicolon ∈ s → pf s = none) (line : GoString) :
    parseLine pf line = parseLineSpec pf line ∧
      (line.count semicolon = 0 → parseLine pf line = none) ∧
      (2 ≤ line.count semicolon → parseLine pf line = none) ∧
      (line.count semicolon = 1 →
        ∃ key field, line = key ++ semicolon :: field ∧ semicolon ∉ key ∧
          semicolon ∉ field ∧
          parseLine pf line = (pf field).map (fun temp => (key, temp))) := by
  by_cases hmem : semicolon ∈ line
  · obtain ⟨p, q, rfl, hp⟩ := exists_first_sep semicolon line hmem
    have hcount : (p ++ semicolon :: q).count semicolon = q.count semicolon + 1 := by
      rw [List.count_append, List.count_cons_self, List.count_eq_zero.2 hp]
      omega
    rw [hcount, parseLine_append_sep pf p q hp, parseLineSpec_append_sep pf p q hp]
    refine ⟨?_, ?_, ?_, ?_⟩
    · split_ifs with hq
      · rw [hpf q hq]
        rfl
      · rfl
    · intro h
      omega
    · intro h
      have hq : semicolon ∈ q := List.count_pos_iff.1 (by omega)
      rw [if_pos hq]
    · intro h
      have hq : semicolon ∉ q := List.count_eq_zero.1 (by omega)
      exact ⟨p, q, rfl, hp, hq, by rw [if_neg hq]⟩
  · have hzero : line.count semicolon = 0 := List.count_eq_zero.2 hmem
    rw [hzero, parseLine_of_not_mem pf line hmem, parseLineSpec_of_not_mem pf line hmem]
    exact ⟨rfl, fun _ => rfl, fun _ => rfl, fun h => absurd h (by decide)⟩

/-- C10, witness: the model of `ParseFloat` rejects every text with a `;`, and on the
line `b;2;3` both algorithms skip. -/
theorem parseLine_refines_spec_witness :
    (∀ s, semicolon ∈ s → parseFloat s = none) ∧
      (parseLine parseFloat (str "b;2;3") = parseLineSpec parseFloat (str "b;2;3") ∧
        ((str "b;2;3").count semicolon = 0 → parseLine parseFloat (str "b;2;3") = none) ∧
        (2 ≤ (str "b;2;3").count semicolon → parseLine parseFloat (str "b;2;3") = none) ∧
        ((str "b;2;3").count semicolon = 1 →
          ∃ key field, str "b;2;3" = key ++ semicolon :: field ∧ semicolon ∉ key ∧
            semicolon ∉ field ∧
            parseLine parseFloat (str "b;2;3") =
              (parseFloat field).map (fun temp => (key, temp)))) :=
  ⟨parseFloat_of_semicolon,
    parseLine_refines_spec parseFloat parseFloat_of_semicolon (str "b;2;3")⟩

/-! ## The order of enumeration of the keys -/

/-- Sorting does not depend on the order in which the strings are given. -/
theorem sortStrings_eq_of_perm {l1 l2 : List GoString} (h : l1.Perm l2) :
    sortStrings l1 = sortStrings l2 := by
  have hp : (sortStrings l1).Perm (sortStrings l2) :=
    (sortStrings_perm l1).trans (h.trans (sortStrings_perm l2).symm)
  haveI : IsAntisymm GoString (fun a b => strLess b a = false) :=
    ⟨fun _ _ h1 h2 => strLess_connex h2 h1⟩
  exact List.eq_of_perm_of_sorted hp (sortStrings_ascending l1) (sortStrings_ascending l2)

/-! ## Division by one -/

theorem roundEven_scale (n d c : Nat) (hc : 0 < c) :
    Float64.roundEven (n * c) (d * c) = Float64.roundEven n d := by
  unfold Float64.roundEven
  simp only []
  rw [Nat.mul_div_mul_right n d hc, Nat.mul_mod_mul_right c n d]
  have h1 : d * c < 2 * (n % d * c) ↔ d < 2 * (n % d) := by
    rw [← Nat.mul_assoc]
    exact Nat.mul_lt_mul_right hc
  have h2 : 2 * (n % d * c) = d * c ↔ 2 * (n % d) = d := by
    rw [← Nat.mul_assoc]
    exact Nat.mul_left_inj (Nat.pos_iff_ne_zero.1 hc)
  simp only [h1, h2]

theorem round_scale (neg : Bool) (x : Nat) :
    Float64.round neg (x * Float64.one) Float64.one = Float64.round neg x 1 := by
  unfold Float64.round
  simp only []
  rw [Nat.mul_div_cancel x Float64.one_pos, Nat.div_one]
  have h := roundEven_scale x (1 * 2 ^ Float64.excessBits x x) Float64.one Float64.one_pos
  have hcomm : 1 * 2 ^ Float64.excessBits x x * Float64.one =
      Float64.one * 2 ^ Float64.excessBits x x := by ring
  rw [hcomm] at h
  rw [h]

theorem ofCount_one : Float64.ofCount 1 = .fin false Float64.one := by
  decide!

/-- Dividing a binary64 value by `float64(1)` gives the value back. -/
theorem div_ofCount_one (v : Float64) (hv : v.representable = true) :
    Float64.div v (Float64.ofCount 1) = v := by
  rw [ofCount_one]
  cases v with
  | nan => rfl
  | inf a => cases a <;> rfl
  | fin a x =>
    have hone : ¬ Float64.one = 0 := Nat.pos_iff_ne_zero.1 Float64.one_pos
    have hr : Float64.round a x 1 = .fin a x := by
      simpa [Float64.representable] using hv
    have ha : (a != false) = a := by cases a <;> rfl
    simp only [Float64.div, hone, if_false, ha, round_scale, hr]

/-! ## The claims about the whole program -/

/-- C11: when the scanner reports an error after the scan loop, whatever lines it
delivered before, the run ends with the fatal read error and prints no summary
string. -/
theorem read_failure_is_fatal (pf : GoString → Option Float64)
    (openFile : GoString → Option Source) (args : List GoString) (file : Source)
    (hargs : 2 ≤ args.length) (hopen : openFile (args.getD 1 []) = some file)
    (hfail : file.failed = true) :
    main pf openFile args = .readError ∧ (main pf openFile args).summary = none := by
  have hmain : main pf openFile args = .readError := by
    unfold main
    rw [if_neg (by omega)]
    simp only [hopen, hfail, if_true]
  rw [hmain]
  exact ⟨rfl, rfl⟩

/-- C11, witness: the scanner fails after the three lines of scenario 1. -/
theorem read_failure_is_fatal_witness :
    2 ≤ [str "calculate", str "measurements.txt"].length ∧
      (fun _ => some failingSource : GoString → Option Source)
          ([str "calculate", str "measurements.txt"].getD 1 []) = some failingSource ∧
      failingSource.failed = true ∧
      main parseFloat (fun _ => some failingSource)
          [str "calculate", str "measurements.txt"] = .readError ∧
      (main parseFloat (fun _ => some failingSource)
          [str "calculate", str "measurements.txt"]).summary = none :=
  ⟨by decide, rfl, rfl,
    read_failure_is_fatal parseFloat (fun _ => some failingSource)
      [str "calculate", str "measurements.txt"] failingSource (by decide) rfl rfl⟩

/-- C12, as amended: the program ends with the usage error when `os.Args` holds the
program name alone, that is, when there is no positional argument, and with fewer than
two elements in `os.Args` no summary is printed.  With one positional argument or more
there is no usage error: the run is the run on the first positional argument alone,
the others being ignored; it ends with the open error when that path cannot be opened,
and it prints the summary of the lines of that file when the scanner does not fail. -/
theorem usage_error (pf : GoString → Option Float64) (openFile : GoString → Option Source)
    (args : List GoString) :
    (args.length = 1 → main pf openFile args = .usageError) ∧
      (args.length < 2 → (main pf openFile args).summary = none) ∧
      (2 ≤ args.length → main pf openFile args ≠ .usageError) ∧
      (∀ prog path rest, args = prog :: path :: rest →
        main pf openFile args = main pf openFile [prog, path] ∧
          (openFile path = none → main pf openFile args = .openError) ∧
          (∀ file, openFile path = some file → file.failed = false →
            ∃ result, run pf file.lines = some result ∧
              main pf openFile args = .printed result)) := by
  refine ⟨?_, ?_, ?_, ?_⟩
  · intro h
    unfold main
    rw [if_pos (by omega)]
    cases args with
    | nil => simp at h
    | cons a rest => rfl
  · intro h
    unfold main
    rw [if_pos h]
    cases args <;> rfl
  · intro h
    unfold main
    rw [if_neg (by omega)]
    cases openFile (args.getD 1 []) with
    | none => simp
    | some file =>
      simp only []
      split_ifs
      · simp
      · cases summary (scan pf file.lines) <;> simp
  · intro prog path rest hargs
    subst hargs
    have hmain : ∀ more : List GoString, main pf openFile (prog :: path :: more) =
        match openFile path with
        | none => Outcome.openError
        | some file =>
          if file.failed then Outcome.readError
          else
            match summary (scan pf file.lines) with
            | none => Outcome.nilPanic
            | some result => Outcome.printed result := by
      intro more
      unfold main
      rw [if_neg (by simp)]
      rfl
    refine ⟨by rw [hmain rest, hmain []], ?_, ?_⟩
    · intro hopen
      rw [hmain rest, hopen]
    · intro file hopen hfail
      refine ⟨_, run_eq pf file.lines, ?_⟩
      rw [hmain rest, hopen]
      have hsum : summary (scan pf file.lines) = some _ := run_eq pf file.lines
      simp only [hfail, Bool.false_eq_true, if_false, hsum]

/-- C12, counterexample: with two positional arguments the number of arguments is not
one, yet the program raises no usage error: it opens the first path, whichever it is,
prints the summary of that file and never looks at the second path. -/
theorem usage_counterexample :
    [str "calculate", str "a.txt", str "b.txt"].length = 3 ∧
      main parseFloat twoFiles [str "calculate", str "a.txt", str "b.txt"] =
        .printed (str "{Bulawayo=8.9/8.9/8.9, Hamburg=12.0/14.2/16.5}") ∧
      main parseFloat twoFiles [str "calculate", str "b.txt", str "a.txt"] =
        .printed (str "{Paris=20.0/21.0/22.0}") ∧
      main parseFloat twoFiles [str "calculate", str "a.txt", str "missing.txt"] =
        .printed (str "{Bulawayo=8.9/8.9/8.9, Hamburg=12.0/14.2/16.5}") ∧
      main parseFloat twoFiles [str "calculate", str "missing.txt", str "a.txt"] =
        .openError := by
  decide!

/-- C13: for fixed input lines, the summary is the same for every order in which
`range` enumerates the keys of the table before they are sorted. -/
theorem summary_deterministic (pf : GoString → Option Float64) (lines : List GoString)
    (cities : List GoString) (h : cities.Perm (keysOf (scan pf lines))) :
    summaryFrom (scan pf lines) cities = run pf lines := by
  unfold run summary summaryFrom
  rw [sortStrings_eq_of_perm h]

/-- C13, witness: scenario 1 with its two keys enumerated in the order opposite to
that of the table. -/
theorem summary_deterministic_witness :
    [str "Bulawayo", str "Hamburg"].Perm (keysOf (scan parseFloat scenario1)) ∧
      summaryFrom (scan parseFloat scenario1) [str "Bulawayo", str "Hamburg"] =
        run parseFloat scenario1 :=
  ⟨by decide!,
    summary_deterministic parseFloat scenario1 [str "Bulawayo", str "Hamburg"] (by decide!)⟩

/-- C14: a key with exactly one well-formed record, of value `v`, has the accumulator
`Min = Max = Sum = v`, `Count = 1`; its mean `Sum / float64(Count)` is `v` again, so
that the three numbers of its entry are rendered alike, and the single line
`Oslo;-5.5` gives the summary whose only entry is `Oslo` with `-5.5` three times. -/
theorem single_record (pf : GoString → Option Float64) (lines : List GoString)
    (key : GoString) (v : Float64) (h : valuesOf pf key lines = [v])
    (hv : v.representable = true) :
    lookup key (scan pf lines) = some ⟨v, v, v, 1⟩ ∧
      Float64.div v (Float64.ofCount 1) = v ∧
      entry key ⟨v, v, v, 1⟩ =
        key ++ str "=" ++ formatF1 v ++ str "/" ++ formatF1 v ++ str "/" ++ formatF1 v ∧
      run parseFloat scenario5 = some (str "\x7bOslo=-5.5/-5.5/-5.5\x7d") := by
  have hdiv := div_ofCount_one v hv
  refine ⟨?_, hdiv, ?_, by decide!⟩
  · rw [lookup_scan, h]
    rfl
  · unfold entry
    simp only [hdiv]

/-- C14, witness: the key `Oslo` of scenario 5, whose only value is -5.5. -/
theorem single_record_witness :
    valuesOf parseFloat (str "Oslo") scenario5 = [.fin true (11 * Float64.one / 2)] ∧
      Float64.representable (.fin true (11 * Float64.one / 2)) = true ∧
      lookup (str "Oslo") (scan parseFloat scenario5) =
        some ⟨.fin true (11 * Float64.one / 2), .fin true (11 * Float64.one / 2),
          .fin true (11 * Float64.one / 2), 1⟩ :=
  ⟨by decide!, by decide!,
    (single_record parseFloat scenario5 (str "Oslo") (.fin true (11 * Float64.one / 2))
      (by decide!) (by decide!)).1⟩

/-! ## The invariant of an accumulator -/

theorem Float64.not_nan_of_lt {x y : Float64} (h : Float64.lt x y = true) :
    x.isNaN = false ∧ y.isNaN = false := by
  simp only [Float64.lt, Bool.and_eq_true, Bool.not_eq_true', decide_eq_true_eq] at h
  exact ⟨h.1.1, h.1.2⟩

theorem observe_ordered (st : TempStats) (v : Float64) (hm : st.Min.isNaN = false)
    (hM : st.Max.isNaN = false) (h : Float64.le st.Min st.Max = true) :
    (st.observe v).Min.isNaN = false ∧ (st.observe v).Max.isNaN = false ∧
      Float64.le (st.observe v).Min (st.observe v).Max = true := by
  cases h1 : Float64.lt v st.Min <;> cases h2 : Float64.lt st.Max v <;>
    simp only [TempStats.observe, h1, h2, if_true, Bool.false_eq_true, if_false]
  · exact ⟨hm, hM, h⟩
  · exact ⟨hm, (Float64.not_nan_of_lt h2).2,
      Float64.le_chain h (Float64.le_of_lt_true h2)⟩
  · exact ⟨(Float64.not_nan_of_lt h1).1, hM,
      Float64.le_chain (Float64.le_of_lt_true h1) h⟩
  · exact ⟨(Float64.not_nan_of_lt h1).1, (Float64.not_nan_of_lt h2).2,
      Float64.le_self (Float64.not_nan_of_lt h1).1⟩

theorem foldl_observe_ordered (vs : List Float64) (st : TempStats)
    (hm : st.Min.isNaN = false) (hM : st.Max.isNaN = false)
    (h : Float64.le st.Min st.Max = true) :
    Float64.le (vs.foldl TempStats.observe st).Min (vs.foldl TempStats.observe st).Max =
      true := by
  induction vs generalizing st with
  | nil => exact h
  | cons v vs ih =>
    obtain ⟨h1, h2, h3⟩ := observe_ordered st v hm hM h
    exact ih (st.observe v) h1 h2 h3

/-- The count kept for a key is the number of its well-formed records. -/
theorem lookup_scan_Count (pf : GoString → Option Float64) (lines : List GoString)
    (key : GoString) (st : TempStats) (h : lookup key (scan pf lines) = some st) :
    st.Count = (valuesOf pf key lines).length := by
  rw [lookup_scan] at h
  obtain ⟨v, rest, hvs, hst⟩ := aggregate_eq_some h
  rw [hst, hvs, foldl_observe_Count]
  simp [TempStats.first]
  omega

theorem excessBits_le (fuel q : Nat) (hq : 1 ≤ q) : 2 ^ Float64.excessBits fuel q ≤ q := by
  induction fuel generalizing q with
  | zero => simpa [Float64.excessBits] using hq
  | succ fuel ih =>
    unfold Float64.excessBits
    split_ifs with hlt
    · simpa using hq
    · have h53 : (2 : Nat) ^ 53 = 9007199254740992 := by norm_num
      rw [h53] at hlt
      have hhalf : 1 ≤ q / 2 := by omega
      have := ih (q / 2) hhalf
      rw [Nat.pow_succ]
      omega

theorem le_roundEven (n d : Nat) : n / d ≤ Float64.roundEven n d := by
  unfold Float64.roundEven
  simp only []
  split_ifs <;> omega

/-- Rounding a quotient that is at least one never gives a zero. -/
theorem round_isZero (neg : Bool) (n d : Nat) (hd : 0 < d) (h : d ≤ n) :
    (Float64.round neg n d).isZero = false := by
  have hq : 1 ≤ n / d := Nat.div_pos h hd
  have hs := excessBits_le (n / d) (n / d) hq
  have hpos : 0 < d * 2 ^ Float64.excessBits (n / d) (n / d) :=
    Nat.mul_pos hd (Nat.two_pow_pos _)
  have hle : d * 2 ^ Float64.excessBits (n / d) (n / d) ≤ n := by
    rw [Nat.mul_comm]
    exact (Nat.le_div_iff_mul_le hd).1 hs
  have h1 : 1 ≤ n / (d * 2 ^ Float64.excessBits (n / d) (n / d)) := Nat.div_pos hle hpos
  have h2 := le_roundEven n (d * 2 ^ Float64.excessBits (n / d) (n / d))
  have h3 : 0 < Float64.roundEven n (d * 2 ^ Float64.excessBits (n / d) (n / d)) *
      2 ^ Float64.excessBits (n / d) (n / d) :=
    Nat.mul_pos (by omega) (Nat.two_pow_pos _)
  unfold Float64.round
  simp only []
  split_ifs
  · rfl
  · generalize Float64.roundEven n (d * 2 ^ Float64.excessBits (n / d) (n / d)) *
      2 ^ Float64.excessBits (n / d) (n / d) = k at h3
    cases k with
    | zero => omega
    | succ k => rfl

/-- The divisor `float64(Count)` of a positive count is not a zero. -/
theorem ofCount_isZero (n : Nat) (hn : 1 ≤ n) : (Float64.ofCount n).isZero = false := by
  unfold Float64.ofCount
  apply round_isZero false (n * Float64.one) 1 (by decide)
  exact Nat.mul_pos hn Float64.one_pos

/-! ## Permuted inputs -/

theorem valuesOf_perm (pf : GoString → Option Float64) (key : GoString)
    {l1 l2 : List GoString} (h : l1.Perm l2) :
    (valuesOf pf key l1).Perm (valuesOf pf key l2) := by
  unfold valuesOf records
  exact ((h.filterMap (wellFormed pf)).filter _).map Prod.snd

theorem keysOf_scan_perm (pf : GoString → Option Float64) {l1 l2 : List GoString}
    (h : l1.Perm l2) : (keysOf (scan pf l1)).Perm (keysOf (scan pf l2)) := by
  rw [List.perm_ext_iff_of_nodup (nodup_keysOf_scan pf l1) (nodup_keysOf_scan pf l2)]
  intro key
  rw [mem_keysOf_scan, mem_keysOf_scan]
  have hr : (records pf l1).Perm (records pf l2) := h.filterMap (wellFormed pf)
  constructor
  · rintro ⟨value, hv⟩
    exact ⟨value, hr.subset hv⟩
  · rintro ⟨value, hv⟩
    exact ⟨value, hr.symm.subset hv⟩

theorem Float64.eq_of_le_of_le {x y : Float64} (h1 : Float64.le x y = true)
    (h2 : Float64.le y x = true) : Float64.eq x y = true := by
  simp only [Float64.le, Float64.eq, Bool.and_eq_true, decide_eq_true_eq] at h1 h2 ⊢
  exact ⟨h1.1, Int.le_antisymm h1.2 h2.2⟩

theorem foldl_add_toRat (vs : List Float64) (a : ℚ) :
    vs.foldl (fun acc x => acc + x.toRat) a = a + (vs.map Float64.toRat).sum := by
  induction vs generalizing a with
  | nil => simp
  | cons v vs ih =>
    rw [List.foldl_cons, ih]
    simp [add_assoc]

/-- The exact total is the sum of the exact values. -/
theorem exactTotal_eq_sum (vs : List Float64) :
    exactTotal vs = (vs.map Float64.toRat).sum := by
  cases vs with
  | nil => rfl
  | cons v vs => simp [exactTotal, foldl_add_toRat]

theorem exactTotal_perm {l1 l2 : List Float64} (h : l1.Perm l2) :
    exactTotal l1 = exactTotal l2 := by
  rw [exactTotal_eq_sum, exactTotal_eq_sum]
  exact (h.map Float64.toRat).sum_eq

theorem Float64.toRat_le {x y : Float64} (h : Float64.le x y = true) : x.toRat ≤ y.toRat := by
  simp only [Float64.le, Bool.and_eq_true, decide_eq_true_eq] at h
  unfold Float64.toRat
  have hpos : (0 : ℚ) < (Float64.one : ℚ) := by exact_mod_cast Float64.one_pos
  have hcast : (x.toInt : ℚ) ≤ (y.toInt : ℚ) := by exact_mod_cast h.2
  exact div_le_div_of_nonneg_right hcast hpos.le

/-! ## Totals computed without rounding -/

theorem Float64.toRat_of_toInt_add {x y z : Float64} (h : z.toInt = x.toInt + y.toInt) :
    z.toRat = x.toRat + y.toRat := by
  unfold Float64.toRat
  rw [h]
  push_cast
  ring

/-- When no addition rounds, the binary64 total denotes the exact total. -/
theorem exactSums_toRat (vs : List Float64) (acc : Float64) (h : exactSums acc vs = true) :
    (vs.foldl Float64.add acc).toRat = acc.toRat + (vs.map Float64.toRat).sum := by
  induction vs generalizing acc with
  | nil => simp
  | cons v vs ih =>
    simp only [exactSums, Bool.and_eq_true, decide_eq_true_eq] at h
    rw [List.foldl_cons, ih _ h.2, Float64.toRat_of_toInt_add h.1.2]
    simp [add_assoc]

/-- The `Sum` kept for a key is the binary64 total of its values, added in input
order. -/
theorem lookup_scan_Sum (pf : GoString → Option Float64) (lines : List GoString)
    (key : GoString) (st : TempStats) (h : lookup key (scan pf lines) = some st) :
    st.Sum = total (valuesOf pf key lines) := by
  rw [lookup_scan] at h
  obtain ⟨v, rest, hvs, hst⟩ := aggregate_eq_some h
  rw [hst, hvs, foldl_observe_Sum]
  rfl

/-- When no addition rounds, the `Sum` kept for a key denotes the exact total. -/
theorem total_toRat (vs : List Float64) (h : exactRun vs = true) :
    (total vs).toRat = exactTotal vs := by
  cases vs with
  | nil => simp [total, exactTotal, Float64.toRat, Float64.toInt]
  | cons v rest =>
    rw [exactTotal_eq_sum]
    simp only [total, List.map_cons, List.sum_cons]
    exact exactSums_toRat rest v h

/-! ## binary64 against exact numbers -/

/-- The sign of a zero follows the order of the lines: the records `A;0.0` and
`A;-0.0` keep extremes that are equal as numbers in both orders, and are rendered
as `0.0` in one order and as `-0.0` in the other. -/
theorem signed_zero_order :
    zeroFirst.Perm zeroLast ∧
      lookup (str "A") (scan parseFloat zeroFirst) =
        some ⟨.fin false 0, .fin false 0, .fin false 0, 2⟩ ∧
      lookup (str "A") (scan parseFloat zeroLast) =
        some ⟨.fin true 0, .fin true 0, .fin false 0, 2⟩ ∧
      Float64.eq (.fin false 0) (.fin true 0) = true ∧
      run parseFloat zeroFirst = some (str "{A=0.0/0.0/0.0}") ∧
      run parseFloat zeroLast = some (str "\x7bA=-0.0/0.0/-0.0\x7d") := by
  decide!

/-- Under binary64 arithmetic the mean can leave the range of the values: three
records of value 0.1 have the total 0.30000000000000004 and a mean above their
maximum. -/
theorem float_mean_above_max :
    lookup (str "A") (scan parseFloat [str "A;0.1", str "A;0.1", str "A;0.1"]) =
        some ⟨.fin false (0x1999999999999A * 2 ^ 1018), .fin false (0x1999999999999A * 2 ^ 1018),
          .fin false (0x13333333333334 * 2 ^ 1020), 3⟩ ∧
      Float64.div (.fin false (0x13333333333334 * 2 ^ 1020)) (Float64.ofCount 3) =
        .fin false (0x1999999999999B * 2 ^ 1018) ∧
      Float64.lt (.fin false (0x1999999999999A * 2 ^ 1018))
        (.fin false (0x1999999999999B * 2 ^ 1018)) = true := by
  decide!

/-! ## The claims about invariants and exact numbers -/

/-- C15, as amended: after any prefix of the input, every accumulator of the table
has `Count >= 1`, so that the divisor `float64(Count)` of the mean is never a zero;
and `Min <= Max` holds for every key whose first recorded value is not NaN. -/
theorem accumulator_invariant (pf : GoString → Option Float64) (lines : List GoString)
    (n : Nat) (key : GoString) (st : TempStats)
    (h : lookup key (scan pf (lines.take n)) = some st) :
    1 ≤ st.Count ∧ (Float64.ofCount st.Count).isZero = false ∧
      (∀ v rest, valuesOf pf key (lines.take n) = v :: rest → v.isNaN = false →
        Float64.le st.Min st.Max = true) := by
  have hcount : 1 ≤ st.Count := by
    have hc := lookup_scan_Count pf (lines.take n) key st h
    rw [lookup_scan] at h
    obtain ⟨v, rest, hvs, -⟩ := aggregate_eq_some h
    rw [hc, hvs]
    simp
  refine ⟨hcount, ofCount_isZero st.Count hcount, ?_⟩
  intro v rest hv hnan
  rw [lookup_scan, hv] at h
  have hst : st = rest.foldl TempStats.observe (TempStats.first v) := by
    simpa [aggregate] using h.symm
  rw [hst]
  exact foldl_observe_ordered rest (TempStats.first v) hnan hnan (Float64.le_self hnan)

/-- C15, witness: the key `Hamburg` after the three lines of scenario 1. -/
theorem accumulator_invariant_witness :
    lookup (str "Hamburg") (scan parseFloat (scenario1.take 3)) =
        some ⟨.fin false (12 * Float64.one), .fin false (33 * Float64.one / 2),
          .fin false (57 * Float64.one / 2), 2⟩ ∧
      1 ≤ 2 ∧ (Float64.ofCount 2).isZero = false ∧
      Float64.le (.fin false (12 * Float64.one)) (.fin false (33 * Float64.one / 2)) = true :=
  ⟨by decide!,
    (accumulator_invariant parseFloat scenario1 3 (str "Hamburg")
      ⟨.fin false (12 * Float64.one), .fin false (33 * Float64.one / 2),
        .fin false (57 * Float64.one / 2), 2⟩ (by decide!)).1,
    (accumulator_invariant parseFloat scenario1 3 (str "Hamburg")
      ⟨.fin false (12 * Float64.one), .fin false (33 * Float64.one / 2),
        .fin false (57 * Float64.one / 2), 2⟩ (by decide!)).2.1,
    (accumulator_invariant parseFloat scenario1 3 (str "Hamburg")
      ⟨.fin false (12 * Float64.one), .fin false (33 * Float64.one / 2),
        .fin false (57 * Float64.one / 2), 2⟩ (by decide!)).2.2
      (.fin false (12 * Float64.one)) [.fin false (33 * Float64.one / 2)]
      (by decide!) (by decide!)⟩

/-- C15, counterexample: after the line `A;NaN` the accumulator of `A` has
`Min = Max = NaN`, for which `Min <= Max` is false, and it stays so after the next
record. -/
theorem invariant_counterexample :
    lookup (str "A") (scan parseFloat (nanFirst.take 1)) = some ⟨.nan, .nan, .nan, 1⟩ ∧
      lookup (str "A") (scan parseFloat (nanFirst.take 2)) = some ⟨.nan, .nan, .nan, 2⟩ ∧
      Float64.le .nan .nan = false := by
  decide!

/-- C16, as amended: for two inputs whose lines are permutations of each other, the
summary lists the same keys in the same order, and every key has the same count, the
same total and mean under exact arithmetic, and, when none of its values is NaN, a min
and a max that are equal as numbers (`==` in Go; a zero may differ in its sign). -/
theorem order_irrelevant (pf : GoString → Option Float64) (l1 l2 : List GoString)
    (hperm : l1.Perm l2) :
    keysOf (sortedEntries (scan pf l1)) = keysOf (sortedEntries (scan pf l2)) ∧
      ∀ key st1, lookup key (scan pf l1) = some st1 →
        ∃ st2, lookup key (scan pf l2) = some st2 ∧ st1.Count = st2.Count ∧
          exactTotal (valuesOf pf key l1) = exactTotal (valuesOf pf key l2) ∧
          exactTotal (valuesOf pf key l1) / st1.Count =
            exactTotal (valuesOf pf key l2) / st2.Count ∧
          ((∀ v ∈ valuesOf pf key l1, v.isNaN = false) →
            Float64.eq st1.Min st2.Min = true ∧ Float64.eq st1.Max st2.Max = true) := by
  refine ⟨?_, ?_⟩
  · rw [keysOf_sortedEntries, keysOf_sortedEntries]
    exact sortStrings_eq_of_perm (keysOf_scan_perm pf hperm)
  · intro key st1 h1
    have hv := valuesOf_perm pf key hperm
    have hmem : key ∈ keysOf (scan pf l2) :=
      (keysOf_scan_perm pf hperm).subset (by
        by_contra hc
        rw [(lookup_eq_none_iff key (scan pf l1)).2 hc] at h1
        cases h1)
    have hne : lookup key (scan pf l2) ≠ none :=
      fun hn => (lookup_eq_none_iff key (scan pf l2)).1 hn hmem
    obtain ⟨st2, h2⟩ := Option.ne_none_iff_exists'.1 hne
    have hc1 := lookup_scan_Count pf l1 key st1 h1
    have hc2 := lookup_scan_Count pf l2 key st2 h2
    have hcount : st1.Count = st2.Count := by rw [hc1, hc2, hv.length_eq]
    have htotal := exactTotal_perm hv
    refine ⟨st2, h2, hcount, htotal, by rw [htotal, hcount], ?_⟩
    intro hnan
    have hnan2 : ∀ v ∈ valuesOf pf key l2, v.isNaN = false :=
      fun v hmem2 => hnan v (hv.symm.subset hmem2)
    rw [lookup_scan] at h1 h2
    obtain ⟨⟨hmin1, hle1⟩, ⟨hmax1, hge1⟩⟩ := aggregate_extremes _ st1 h1 hnan
    obtain ⟨⟨hmin2, hle2⟩, ⟨hmax2, hge2⟩⟩ := aggregate_extremes _ st2 h2 hnan2
    exact ⟨Float64.eq_of_le_of_le (hle1 _ (hv.symm.subset hmin2)) (hle2 _ (hv.subset hmin1)),
      Float64.eq_of_le_of_le (hge2 _ (hv.subset hmax1)) (hge1 _ (hv.symm.subset hmax2))⟩

/-- C16, witness: scenario 1 and the same lines in the opposite order. -/
theorem order_irrelevant_witness :
    scenario1.Perm scenario1.reverse ∧
      keysOf (sortedEntries (scan parseFloat scenario1)) =
        keysOf (sortedEntries (scan parseFloat scenario1.reverse)) :=
  ⟨(List.reverse_perm scenario1).symm,
    (order_irrelevant parseFloat scenario1 scenario1.reverse
      (List.reverse_perm scenario1).symm).1⟩

/-- C16, counterexample: the records `A;NaN` and `A;1.0` in their two orders give the
key `A` the extremes NaN and NaN in one case, 1.0 and 1.0 in the other, and the two
summaries differ. -/
theorem order_counterexample :
    nanFirst.Perm nanLast ∧
      lookup (str "A") (scan parseFloat nanFirst) = some ⟨.nan, .nan, .nan, 2⟩ ∧
      lookup (str "A") (scan parseFloat nanLast) =
        some ⟨.fin false Float64.one, .fin false Float64.one, .nan, 2⟩ ∧
      Float64.eq .nan (.fin false Float64.one) = false ∧
      run parseFloat nanFirst = some (str "{A=NaN/NaN/NaN}") ∧
      run parseFloat nanLast = some (str "{A=1.0/NaN/1.0}") := by
  decide!

/-- C17, as amended: for every input and every key of the table whose values are all
finite, the exact total of the values divided by `Count` lies between the `Min` and the
`Max` kept for the key; and when, in addition, no addition of the running `Sum` rounds,
the `Sum` kept by the program denotes that exact total, so that `Sum / Count`, taken as
exact numbers, lies between `Min` and `Max`. -/
theorem mean_between_extremes (pf : GoString → Option Float64) (lines : List GoString)
    (key : GoString) (st : TempStats) (h : lookup key (scan pf lines) = some st)
    (hfin : ∀ v ∈ valuesOf pf key lines, v.isFinite = true) :
    (st.Min.toRat ≤ exactTotal (valuesOf pf key lines) / st.Count ∧
        exactTotal (valuesOf pf key lines) / st.Count ≤ st.Max.toRat) ∧
      (exactRun (valuesOf pf key lines) = true →
        st.Sum.toRat = exactTotal (valuesOf pf key lines) ∧
          st.Min.toRat ≤ st.Sum.toRat / st.Count ∧
          st.Sum.toRat / st.Count ≤ st.Max.toRat) := by
  have hnan : ∀ v ∈ valuesOf pf key lines, v.isNaN = false := by
    intro v hv
    have := hfin v hv
    cases v <;> simp [Float64.isFinite, Float64.isNaN] at this ⊢
  have hc := lookup_scan_Count pf lines key st h
  have hsum := lookup_scan_Sum pf lines key st h
  rw [lookup_scan] at h
  obtain ⟨⟨hmin, hle⟩, ⟨hmax, hge⟩⟩ := aggregate_extremes _ st h hnan
  have hlen : 0 < (valuesOf pf key lines).length := List.length_pos_of_mem hmin
  have hpos : (0 : ℚ) < (st.Count : ℚ) := by
    rw [hc]
    exact_mod_cast hlen
  have hlow := List.card_nsmul_le_sum ((valuesOf pf key lines).map Float64.toRat)
    st.Min.toRat (by
      intro x hx
      obtain ⟨v, hv, rfl⟩ := List.mem_map.1 hx
      exact Float64.toRat_le (hle v hv))
  have hhigh := List.sum_le_card_nsmul ((valuesOf pf key lines).map Float64.toRat)
    st.Max.toRat (by
      intro x hx
      obtain ⟨v, hv, rfl⟩ := List.mem_map.1 hx
      exact Float64.toRat_le (hge v hv))
  rw [List.length_map, nsmul_eq_mul, ← hc] at hlow hhigh
  have hbounds : st.Min.toRat ≤ exactTotal (valuesOf pf key lines) / st.Count ∧
      exactTotal (valuesOf pf key lines) / st.Count ≤ st.Max.toRat := by
    rw [exactTotal_eq_sum]
    constructor
    · rw [le_div_iff₀ hpos]
      linarith
    · rw [div_le_iff₀ hpos]
      linarith
  refine ⟨hbounds, ?_⟩
  intro hexact
  have hexactSum : st.Sum.toRat = exactTotal (valuesOf pf key lines) := by
    rw [hsum]
    exact total_toRat _ hexact
  rw [hexactSum]
  exact ⟨rfl, hbounds⟩

/-- C17, witness: the key `Hamburg` of scenario 1, whose values 12.0 and 16.5 are
finite and add up to 28.5 without rounding: 12.0 <= 28.5 / 2 <= 16.5. -/
theorem mean_between_extremes_witness :
    lookup (str "Hamburg") (scan parseFloat scenario1) =
        some ⟨.fin false (12 * Float64.one), .fin false (33 * Float64.one / 2),
          .fin false (57 * Float64.one / 2), 2⟩ ∧
      (∀ v ∈ valuesOf parseFloat (str "Hamburg") scenario1, v.isFinite = true) ∧
      exactRun (valuesOf parseFloat (str "Hamburg") scenario1) = true ∧
      (Float64.fin false (12 * Float64.one)).toRat ≤
        (Float64.fin false (57 * Float64.one / 2)).toRat / (2 : Nat) ∧
      (Float64.fin false (57 * Float64.one / 2)).toRat / (2 : Nat) ≤
        (Float64.fin false (33 * Float64.one / 2)).toRat :=
  ⟨by decide!, by decide!, by decide!,
    ((mean_between_extremes parseFloat scenario1 (str "Hamburg")
      ⟨.fin false (12 * Float64.one), .fin false (33 * Float64.one / 2),
        .fin false (57 * Float64.one / 2), 2⟩ (by decide!) (by decide!)).2 (by decide!)).2⟩

/-- C17, counterexample: on the records `A;1.0`, `A;NaN` the program keeps
`Min = Max = 1.0` and the mean `NaN / 2 = NaN`, which is on neither side of them, and
prints it; on three records of value 0.1, all finite, the binary64 total is
0.30000000000000004 and the mean is above `Max`; and on six records of value 0.35 the
mean is printed as 0.4 between a min and a max printed as 0.3. -/
theorem mean_counterexample :
    lookup (str "A") (scan parseFloat nanLast) =
        some ⟨.fin false Float64.one, .fin false Float64.one, .nan, 2⟩ ∧
      Float64.div .nan (Float64.ofCount 2) = .nan ∧
      Float64.le (.fin false Float64.one) .nan = false ∧
      Float64.le .nan (.fin false Float64.one) = false ∧
      run parseFloat nanLast = some (str "{A=1.0/NaN/1.0}") ∧
      lookup (str "A") (scan parseFloat threeTenths) =
        some ⟨.fin false (0x1999999999999A * 2 ^ 1018), .fin false (0x1999999999999A * 2 ^ 1018),
          .fin false (0x13333333333334 * 2 ^ 1020), 3⟩ ∧
      Float64.div (.fin false (0x13333333333334 * 2 ^ 1020)) (Float64.ofCount 3) =
        .fin false (0x1999999999999B * 2 ^ 1018) ∧
      Float64.le (.fin false (0x1999999999999B * 2 ^ 1018))
        (.fin false (0x1999999999999A * 2 ^ 1018)) = false ∧
      exactRun (valuesOf parseFloat (str "A") threeTenths) = false ∧
      (∀ v ∈ valuesOf parseFloat (str "A") sixRecords, v.isFinite = true) ∧
      exactRun (valuesOf parseFloat (str "A") sixRecords) = false ∧
      run parseFloat sixRecords = some (str "{A=0.3/0.4/0.3}") := by
  decide!

end Calculate
